import Mathlib

/-!
Shallow embedding of the Hill-cipher repository (files `hill_cipher.py` and
`ciphers.py`) and proofs of the specification claims.

Conventions of the embedding:
* Python strings are `List Char`; Python ints are `Int` (arbitrary precision);
  indices produced by the alphabet codec are `Int` as in the source.
* Python `%` and `//` on ints are floor-mod and floor-div, embedded as
  `Int.fmod` and `Int.fdiv`.
* Calls of `sys.exit` after an error report, and uncaught Python exceptions
  (`IndexError` from an out-of-range list access, `ZeroDivisionError` from
  `% 0`), are embedded as `Except`/`Option` failures with a distinct
  error value per failure site.
* Recursive functions whose Python originals recurse on shrinking integers
  or lists (`gcd`, `gcdExtended`, the block loop) take an explicit fuel
  argument that is always large enough; this keeps every definition
  evaluable by the kernel.
-/

/-- Decidable equality of `Except` results, used to evaluate runs of the
embedded pipeline on concrete inputs. -/
instance {ε α : Type} [DecidableEq ε] [DecidableEq α] : DecidableEq (Except ε α)
  | .error a, .error b =>
    if h : a = b then .isTrue (by rw [h]) else .isFalse (fun c => h (Except.error.inj c))
  | .error _, .ok _ => .isFalse (fun c => Except.noConfusion c)
  | .ok _, .error _ => .isFalse (fun c => Except.noConfusion c)
  | .ok a, .ok b =>
    if h : a = b then .isTrue (by rw [h]) else .isFalse (fun c => h (Except.ok.inj c))

/-- Largest `k ≤ bound` with `k * k ≤ n` (0 when there is none). -/
def intSqrtAux : Nat → Nat → Nat
  | 0, _ => 0
  | k + 1, n => if (k + 1) * (k + 1) ≤ n then k + 1 else intSqrtAux k n

/-- The integer square root, `int(math.sqrt(n))` of the source.  Unlike
`Nat.sqrt` this linear search is reducible by the kernel; the two agree
(`intSqrt_eq_sqrt`). -/
def intSqrt (n : Nat) : Nat :=
  intSqrtAux n n

namespace HillCipher

/-- Failure modes of the pipeline in `hill_cipher.py`.  Each constructor
corresponds to one `sys.exit` site or uncaught exception of the source. -/
inductive CipherError where
  /-- `letterToNum`: the symbol is not in the alphabet. -/
  | unsupportedSymbol
  /-- `stringToMat`: the key length is not a perfect square. -/
  | invalidKeyShape
  /-- `inverse`: the determinant is zero. -/
  | singularMatrix
  /-- `inverse`: the determinant is not coprime with the alphabet length. -/
  | nonInvertibleModulus
  /-- `hillCipher`: `len(message) % blockLen` with `blockLen = 0`
  (Python `ZeroDivisionError`). -/
  | zeroDivision
  /-- `numToLetter`: index out of range (Python `IndexError`). -/
  | indexError
  deriving DecidableEq, Repr

/-- The extended alphabet of `hill_cipher.py`: `A`-`Z`, `a`-`z`, `0`-`9`,
then 35 extra symbols.  The three ranges mirror the three `while` loops of
the source; the tail lists the explicit code points of
`ñ Ñ Á É Í Ó Ú á é í ó ú`, space, `, . ¿ ? ¡ ! $ * + - / : ( ) [ ]`,
left brace, right brace, `;`, apostrophe, double quote and newline. -/
def ALPHABET : List Char :=
  (List.range 26).map (fun i => Char.ofNat (65 + i)) ++
  (List.range 26).map (fun i => Char.ofNat (97 + i)) ++
  (List.range 10).map (fun i => Char.ofNat (48 + i)) ++
  ([241, 209, 193, 201, 205, 211, 218, 225, 233, 237, 243, 250,
    32, 44, 46, 191, 63, 161, 33, 36, 42, 43, 45, 47, 58,
    40, 41, 91, 93, 123, 125, 59,
    39, 34, 10].map Char.ofNat)

/-- `ALPHABET_LEN = len(ALPHABET)` from the source (its value is 97). -/
def ALPHABET_LEN : Nat := ALPHABET.length

/-- `letterToNum`: index of a letter in the alphabet, failing (`sys.exit`)
when the letter is not part of the alphabet. -/
def letterToNum (letter : Char) : Option Nat :=
  if letter ∈ ALPHABET then some (ALPHABET.indexOf letter) else none

/-- `numToLetter`: the letter at an index; the source does an unchecked
list access `ALPHABET[num]`, so an out-of-range index is a failure. -/
def numToLetter (num : Nat) : Option Char :=
  ALPHABET.get? num

/-- Fuel-indexed version of the source's recursive `gcd`.
The fuel only needs to exceed `|a|` (see `natAbs_fmod_lt`). -/
def gcdAux : Nat → Int → Int → Int
  | 0, _, b => b
  | fuel + 1, a, b => if a = 0 then b else gcdAux fuel (Int.fmod b a) a

/-- `gcd`: Euclid's algorithm exactly as in the source
(`if a == 0: return b; return gcd(b % a, a)` with Python's floor-mod). -/
def gcd (a b : Int) : Int :=
  gcdAux (a.natAbs + 1) a b

/-- Fuel-indexed version of the source's recursive `gcdExtended`. -/
def gcdExtendedAux : Nat → Int → Int → Int × Int × Int
  | 0, _, b => (b, 0, 1)
  | fuel + 1, a, b =>
    if a = 0 then (b, 0, 1)
    else
      let r := gcdExtendedAux fuel (Int.fmod b a) a
      (r.1, r.2.2 - (Int.fdiv b a) * r.2.1, r.2.1)

/-- `gcdExtended`: extended Euclid as in the source, returning
`(g, x, y)` with `a*x + b*y = g`. -/
def gcdExtended (a b : Int) : Int × Int × Int :=
  gcdExtendedAux (a.natAbs + 1) a b

/-- The minor used by `det` and `inverse`:
`[row[:column] + row[column+1:] for row in rows]`. -/
def minorCols (column : Nat) (rows : List (List Int)) : List (List Int) :=
  rows.map (fun row => row.take column ++ row.drop (column + 1))

/-- Size-indexed version of `det` (the index is the row count, which
bounds the recursion depth).  A 0-row matrix makes the source raise
`IndexError` at `mat[0]`; that case is unreachable from the pipeline and
is mapped to 0 here. -/
def detAux : Nat → List (List Int) → Int
  | 0, _ => 0
  | 1, mat => (mat.headD []).headD 0
  | n + 2, mat =>
    match mat with
    | [] => 0
    | firstRow :: lowerRows =>
      ((List.range firstRow.length).map (fun column =>
        (if column % 2 = 0 then (1 : Int) else -1) * firstRow.getD column 0 *
          detAux (n + 1) (minorCols column lowerRows))).sum

/-- `det`: determinant by recursive Laplace expansion along the first row,
as in the source. -/
def det (mat : List (List Int)) : Int :=
  detAux mat.length mat

/-- `mod`: the source's normalizing modulus,
`num % divisor` when `num >= 0`, else `(divisor - ((-num) % divisor)) % divisor`,
with Python's floor-mod. -/
def mod (num divisor : Int) : Int :=
  if 0 ≤ num then Int.fmod num divisor
  else Int.fmod (divisor - Int.fmod (-num) divisor) divisor

/-- The `CipherMat` object: the stored matrix and its dimensions. -/
structure CipherMat where
  mat : List (List Int)
  rows : Nat
  columns : Nat
  deriving DecidableEq, Repr

/-- Successive `letterToNum` translation of a string, failing at the first
unsupported symbol exactly as the source's per-character loops do. -/
def translate : List Char → Except CipherError (List Int)
  | [] => .ok []
  | c :: rest =>
    match letterToNum c with
    | some v => (translate rest).map (fun l => (v : Int) :: l)
    | none => .error .unsupportedSymbol

/-- Successive `numToLetter` translation back to symbols; an out-of-range
index is the source's uncaught `IndexError`.  (A negative index cannot
occur: every produced index is a `mod` result.) -/
def untranslate : List Int → Except CipherError (List Char)
  | [] => .ok []
  | v :: rest =>
    match numToLetter v.toNat with
    | some c => (untranslate rest).map (fun l => c :: l)
    | none => .error .indexError

/-- Row-major filling of `rows` rows of `columns` entries each, as the
double loop of `stringToMat` does. -/
def buildRows : Nat → Nat → List Int → List (List Int)
  | 0, _, _ => []
  | r + 1, columns, xs => xs.take columns :: buildRows r columns (xs.drop columns)

/-- `CipherMat.stringToMat`: derive the dimension as the integer square
root of the key length, fail with the key-shape error when the length is
not a perfect square, then translate the characters row-major. -/
def CipherMat.stringToMat (string : List Char) : Except CipherError CipherMat :=
  let n := intSqrt string.length
  if n * n ≠ string.length then .error .invalidKeyShape
  else (translate string).map (fun nums => ⟨buildRows n n nums, n, n⟩)

/-- `CipherMat.size`: the number of rows. -/
def CipherMat.size (m : CipherMat) : Nat := m.rows

/-- `CipherMat.inverse`: replace the matrix with its modular inverse;
fails when the determinant is zero or not coprime with the alphabet
length.  The cofactor double loop, the in-place transposition (which on a
square matrix is exactly the transpose), and the entrywise scaling by the
modular inverse of the determinant are reproduced from the source.

Two failure sites of the source are uncaught `IndexError`s from
`det([])` (whose `mat[0]` faults on an empty list): the initial
`det(self.mat)` when the stored matrix has no rows, and the first
cofactor `det(minor)` when the matrix has exactly one row (its row-
deleted minor is empty).  The latter fires after the two determinant
checks, as soon as the cofactor loop runs its first iteration. -/
def CipherMat.inverse (m : CipherMat) : Except CipherError CipherMat :=
  if m.mat = [] then .error .indexError
  else
  let determinant := det m.mat
  if determinant = 0 then .error .singularMatrix
  else if (gcd determinant (ALPHABET_LEN : Int)).natAbs ≠ 1 then .error .nonInvertibleModulus
  else if 0 < m.rows ∧ 0 < m.columns ∧ m.mat.length = 1 then .error .indexError
  else
    let cofactorMat := (List.range m.rows).map (fun row =>
      (List.range m.columns).map (fun col =>
        (if (row + col) % 2 = 0 then (1 : Int) else -1) *
          det (minorCols col (m.mat.take row ++ m.mat.drop (row + 1)))))
    let adjointMat := (List.range m.rows).map (fun row =>
      (List.range m.columns).map (fun col => (cofactorMat.getD col []).getD row 0))
    let x := (gcdExtended (mod determinant (ALPHABET_LEN : Int)) (ALPHABET_LEN : Int)).2.1
    let determinantModInverse := mod x (ALPHABET_LEN : Int)
    .ok ⟨adjointMat.map (fun r => r.map (fun v => mod (v * determinantModInverse) (ALPHABET_LEN : Int))),
         m.rows, m.columns⟩

/-- `CipherMat.cipher`: multiply the stored matrix by a block, reducing
each coordinate with `mod`. -/
def CipherMat.cipher (m : CipherMat) (block : List Int) : List Int :=
  (List.range m.rows).map (fun row =>
    mod (((List.range m.columns).map (fun col =>
      (m.mat.getD row []).getD col 0 * block.getD col 0)).sum) (ALPHABET_LEN : Int))

/-- Fuel-indexed chunking of the translated message into blocks of
`blockLen` symbols (the `while i < len(message)` loop); the fuel only
needs to reach the list length. -/
def chunkAux : Nat → Nat → List Int → List (List Int)
  | _, _, [] => []
  | 0, _, _ :: _ => []
  | fuel + 1, blockLen, x :: xs =>
    (x :: xs).take blockLen :: chunkAux fuel blockLen ((x :: xs).drop blockLen)

/-- The blocks processed by the main loop of `hillCipher`. -/
def chunkBlocks (blockLen : Nat) (l : List Int) : List (List Int) :=
  chunkAux l.length blockLen l

/-- The body of `hillCipher` after the key matrix has been installed:
pad with spaces to a multiple of the block length (a block length of zero
makes the source's `len(message) % blockLen` raise `ZeroDivisionError`),
then translate, cipher and untranslate block by block. -/
def hillCipherCore (cipherMat : CipherMat) (message : List Char) :
    Except CipherError (List Char) :=
  let blockLen := cipherMat.size
  if blockLen = 0 then .error .zeroDivision
  else
    let message :=
      if message.length % blockLen ≠ 0 then
        message ++ List.replicate (blockLen - message.length % blockLen) ' '
      else message
    (translate message).bind (fun nums =>
      untranslate ((chunkBlocks blockLen nums).map cipherMat.cipher).flatten)

/-- `hillCipher`: build the key matrix, replace it by its modular inverse
when decoding, then transform the message block by block. -/
def hillCipher (message key : List Char) (encoding : Bool) :
    Except CipherError (List Char) :=
  (CipherMat.stringToMat key).bind (fun cipherMat =>
    (if encoding then .ok cipherMat else cipherMat.inverse).bind (fun m =>
      hillCipherCore m message))

/-- The list-of-rows matrix as a Mathlib matrix, reading entry `(i, j)`
the way the source indexes `mat[i][j]`.  Used to state determinant and
inverse correctness against Mathlib's linear algebra. -/
def toMatrix (n : Nat) (mat : List (List Int)) : Matrix (Fin n) (Fin n) Int :=
  Matrix.of (fun i j => (mat.getD i []).getD j 0)

end HillCipher

namespace Ciphers

/-!
Embedding of `ciphers.py`: the fixed 2×2 Hill cipher over the 27-letter
Spanish alphabet `A`-`Z` plus `Ñ` (and the shared alphabet codec).
-/

/-- `ALPHABET_LEN = 27` from `ciphers.py`. -/
def ALPHABET_LEN : Int := 27

/-- `letterToNum` of `ciphers.py`: `A`-`N` map to 0-13, `Ñ` to 14,
`O`-`Z` to 15-26; anything else is rejected (`sys.exit`).  The guard
reproduces the source's `letter < 'A' or letter > 'Z' and letter != 'Ñ'`
with Python's operator precedence (`or` binds weaker than `and`). -/
def letterToNum (letter : Char) : Option Int :=
  if letter < 'A' ∨ (letter > 'Z' ∧ letter ≠ 'Ñ') then none
  else if letter ≤ 'N' then some ((letter.toNat : Int) - 65)
  else if letter = 'Ñ' then some (('N'.toNat : Int) - 65 + 1)
  else some ((letter.toNat : Int) - 65 + 1)

/-- `numToLetter` of `ciphers.py` (13 and 14 are `letterToNum('N')` and
`letterToNum('Ñ')`). -/
def numToLetter (num : Int) : Char :=
  if num ≤ 13 then Char.ofNat (num + 65).toNat
  else if num = 14 then 'Ñ'
  else Char.ofNat (num + 65 - 1).toNat

/-- `mod` of `ciphers.py`, identical to the one in `hill_cipher.py`. -/
def mod (num divisor : Int) : Int :=
  if 0 ≤ num then Int.fmod num divisor
  else Int.fmod (divisor - Int.fmod (-num) divisor) divisor

/-- The `TwoByTwoCipherMat` storage: a 2×2 integer matrix. -/
structure TwoByTwoCipherMat where
  m00 : Int
  m01 : Int
  m10 : Int
  m11 : Int
  deriving DecidableEq, Repr

/-- `multiplyByScalar`: multiply every entry by a scalar. -/
def TwoByTwoCipherMat.multiplyByScalar (m : TwoByTwoCipherMat) (scalar : Int) :
    TwoByTwoCipherMat :=
  ⟨m.m00 * scalar, m.m01 * scalar, m.m10 * scalar, m.m11 * scalar⟩

/-- `multiplyByTwoByOne`: multiply the matrix by a 2×1 vector, reducing
both coordinates with `mod`. -/
def TwoByTwoCipherMat.multiplyByTwoByOne (m : TwoByTwoCipherMat) (x y : Int) :
    Int × Int :=
  (mod (m.m00 * x + m.m01 * y) ALPHABET_LEN,
   mod (m.m10 * x + m.m11 * y) ALPHABET_LEN)

/-- The `mod` method: reduce every entry. -/
def TwoByTwoCipherMat.modAll (m : TwoByTwoCipherMat) (divisor : Int) :
    TwoByTwoCipherMat :=
  ⟨mod m.m00 divisor, mod m.m01 divisor, mod m.m10 divisor, mod m.m11 divisor⟩

/-- `det`: the 2×2 determinant. -/
def TwoByTwoCipherMat.det (m : TwoByTwoCipherMat) : Int :=
  m.m00 * m.m11 - m.m01 * m.m10

/-- `transjacent`: swap the main diagonal and negate the other one
(the transpose of the adjacent matrix). -/
def TwoByTwoCipherMat.transjacent (m : TwoByTwoCipherMat) : TwoByTwoCipherMat :=
  ⟨m.m11, -m.m01, -m.m10, m.m00⟩

/-- `stringToMat`: read the first four letters of the key row-major
(further characters are ignored by the source's fixed 2×2 loop; a
shorter key raises `IndexError`). -/
def TwoByTwoCipherMat.stringToMat (string : List Char) :
    Option TwoByTwoCipherMat :=
  match string with
  | a :: b :: c :: d :: _ =>
    (letterToNum a).bind (fun x00 =>
      (letterToNum b).bind (fun x01 =>
        (letterToNum c).bind (fun x10 =>
          (letterToNum d).map (fun x11 => ⟨x00, x01, x10, x11⟩))))
  | _ => none

/-- `toTheMinusOne`: `K⁻¹ = [T_ADJ(K) * ((n+1)/det K)] mod n`; fails when
the determinant (taken after `transjacent`, as in the source) is zero.
The source divides with Python's float `/`; on every run verified here
the determinant divides `ALPHABET_LEN + 1 = 28` exactly, so integer
division yields the identical value. -/
def TwoByTwoCipherMat.toTheMinusOne (m : TwoByTwoCipherMat) :
    Option TwoByTwoCipherMat :=
  let t := m.transjacent
  let determinant := t.det
  if determinant = 0 then none
  else some ((t.multiplyByScalar ((ALPHABET_LEN + 1) / determinant)).modAll ALPHABET_LEN)

/-- The block loop of `hillCipher` in `ciphers.py`: consume two letters
at a time (an odd trailing letter makes the source raise `IndexError`
at `message[i + 1]`; there is no padding in this file). -/
def hillCipherLoop (m : TwoByTwoCipherMat) : List Char → Option (List Char)
  | [] => some []
  | [_] => none
  | a :: b :: rest =>
    (letterToNum a).bind (fun x =>
      (letterToNum b).bind (fun y =>
        (hillCipherLoop m rest).map (fun tail =>
          numToLetter (m.multiplyByTwoByOne x y).1 ::
          numToLetter (m.multiplyByTwoByOne x y).2 :: tail)))

/-- `hillCipher` of `ciphers.py`: install the key matrix (inverted when
decoding) and transform the message two letters at a time. -/
def hillCipher (message key : List Char) (encoding : Bool) :
    Option (List Char) :=
  (TwoByTwoCipherMat.stringToMat key).bind (fun m0 =>
    (if encoding then some m0 else m0.toTheMinusOne).bind (fun m =>
      hillCipherLoop m message))

end Ciphers

/-! ## Properties of the integer square root -/

theorem intSqrtAux_eq (n : Nat) : ∀ k, intSqrtAux k n = min k (Nat.sqrt n) := by
  intro k
  induction k with
  | zero => simp [intSqrtAux]
  | succ k ih =>
    rw [intSqrtAux]
    by_cases h : (k + 1) * (k + 1) ≤ n
    · rw [if_pos h]
      have : k + 1 ≤ Nat.sqrt n := Nat.le_sqrt.mpr h
      omega
    · rw [if_neg h, ih]
      have : Nat.sqrt n ≤ k := by
        by_contra hc
        exact h (Nat.le_sqrt.mp (by omega))
      omega

/-- `intSqrt` is the integer square root. -/
theorem intSqrt_eq_sqrt (n : Nat) : intSqrt n = Nat.sqrt n := by
  rw [intSqrt, intSqrtAux_eq]
  exact Nat.min_eq_right (Nat.sqrt_le_self n)

/-- A length fails the source's square check iff it is not a perfect
square. -/
theorem intSqrt_square_check (L : Nat) :
    intSqrt L * intSqrt L ≠ L ↔ ∀ k, k * k ≠ L := by
  constructor
  · intro h k hk
    have : Nat.sqrt L = k := by rw [← hk, Nat.sqrt_eq]
    exact h (by rw [intSqrt_eq_sqrt, this, hk])
  · intro h
    exact h (intSqrt L)

namespace HillCipher

/-! ## Basic facts about the alphabet and the modulus -/

theorem alphabet_length : ALPHABET_LEN = 97 := by decide

theorem alphabet_nodup : ALPHABET.Nodup := by decide

theorem alphabet_len_pos : 0 < (ALPHABET_LEN : Int) := by decide

/-- The source's `mod` agrees with euclidean `%` for a positive divisor. -/
theorem mod_eq_emod (num divisor : Int) (hd : 0 < divisor) :
    mod num divisor = num % divisor := by
  unfold mod
  by_cases h : 0 ≤ num
  · rw [if_pos h, Int.fmod_eq_emod _ (le_of_lt hd)]
  · rw [if_neg h, Int.fmod_eq_emod _ (le_of_lt hd), Int.fmod_eq_emod _ (le_of_lt hd)]
    calc (divisor - -num % divisor) % divisor
        = (divisor % divisor - -num % divisor % divisor) % divisor := by
          rw [← Int.sub_emod]
      _ = (divisor % divisor - -num % divisor) % divisor := by rw [Int.emod_emod]
      _ = (divisor - -num) % divisor := by rw [← Int.sub_emod]
      _ = (-(-num)) % divisor := by rw [← Int.neg_emod]
      _ = num % divisor := by rw [neg_neg]

theorem mod_nonneg (num divisor : Int) (hd : 0 < divisor) : 0 ≤ mod num divisor := by
  rw [mod_eq_emod num divisor hd]
  exact Int.emod_nonneg num (by omega)

theorem mod_lt (num divisor : Int) (hd : 0 < divisor) : mod num divisor < divisor := by
  rw [mod_eq_emod num divisor hd]
  exact Int.emod_lt_of_pos num hd

theorem mod_congr (num divisor : Int) (hd : 0 < divisor) :
    mod num divisor % divisor = num % divisor := by
  rw [mod_eq_emod num divisor hd, Int.emod_emod]

/-! ## The Euclidean recursions -/

/-- Python's floor-mod strictly shrinks the absolute value of the
divisor, which bounds the depth of the `gcd`/`gcdExtended` recursions. -/
theorem natAbs_fmod_lt (b a : Int) (h : a ≠ 0) :
    (Int.fmod b a).natAbs < a.natAbs := by
  cases a with
  | ofNat n =>
    rw [Int.ofNat_eq_coe] at h ⊢
    have hn : 0 < (n : Int) := by omega
    rw [Int.fmod_eq_emod _ (le_of_lt hn)]
    have h2 : 0 ≤ b % (n : Int) := Int.emod_nonneg b (by omega)
    have h3 : b % (n : Int) < (n : Int) := Int.emod_lt_of_pos b hn
    omega
  | negSucc n =>
    cases b with
    | ofNat m =>
      cases m with
      | zero =>
        rw [show Int.ofNat 0 = 0 from rfl, Int.zero_fmod]
        simp [Int.natAbs_negSucc]
      | succ m =>
        rw [show Int.fmod (Int.ofNat (m + 1)) (Int.negSucc n) =
              Int.subNatNat (m % (n + 1)) n from rfl,
          Int.subNatNat_eq_coe, Int.natAbs_negSucc]
        have : m % (n + 1) < n + 1 := Nat.mod_lt _ (by omega)
        omega
    | negSucc m =>
      rw [show Int.fmod (Int.negSucc m) (Int.negSucc n) =
            -(Int.ofNat ((m + 1) % (n + 1))) from rfl,
        Int.natAbs_negSucc, Int.natAbs_neg, Int.ofNat_eq_coe, Int.natAbs_ofNat]
      exact Nat.mod_lt _ (by omega)

/-- One step of the embedded `gcd` preserves `Int.gcd`. -/
theorem gcd_fmod_step (a b : Int) : Int.gcd (Int.fmod b a) a = Int.gcd a b := by
  have hf : Int.fmod b a = b - a * b.fdiv a := Int.fmod_def b a
  apply Nat.dvd_antisymm
  · have d1 : (↑(Int.gcd (Int.fmod b a) a) : Int) ∣ Int.fmod b a := Int.gcd_dvd_left
    have d2 : (↑(Int.gcd (Int.fmod b a) a) : Int) ∣ a := Int.gcd_dvd_right
    have db : (↑(Int.gcd (Int.fmod b a) a) : Int) ∣ b := by
      have hb : b = Int.fmod b a + a * b.fdiv a := by rw [hf]; ring
      have hd := dvd_add d1 (d2.mul_right (b.fdiv a))
      rwa [← hb] at hd
    exact Int.natCast_dvd_natCast.mp (Int.dvd_gcd d2 db)
  · have d1 : (↑(Int.gcd a b) : Int) ∣ a := Int.gcd_dvd_left
    have d2 : (↑(Int.gcd a b) : Int) ∣ b := Int.gcd_dvd_right
    have df : (↑(Int.gcd a b) : Int) ∣ Int.fmod b a := by
      rw [hf]
      exact dvd_sub d2 (d1.mul_right _)
    exact Int.natCast_dvd_natCast.mp (Int.dvd_gcd df d1)

/-- The fuel-indexed `gcd` computes `Int.gcd` up to sign. -/
theorem gcdAux_natAbs (fuel : Nat) :
    ∀ a b : Int, a.natAbs < fuel → (gcdAux fuel a b).natAbs = Int.gcd a b := by
  induction fuel with
  | zero => intro a b h; omega
  | succ fuel ih =>
    intro a b h
    rw [gcdAux]
    by_cases ha : a = 0
    · rw [if_pos ha, ha]
      simp [Int.gcd]
    · rw [if_neg ha, ih _ _ (lt_of_lt_of_le (natAbs_fmod_lt b a ha) (by omega)),
        gcd_fmod_step]

theorem gcd_natAbs (a b : Int) : (gcd a b).natAbs = Int.gcd a b :=
  gcdAux_natAbs (a.natAbs + 1) a b (by omega)

/-- For nonnegative inputs the embedded `gcd` is nonnegative. -/
theorem gcdAux_nonneg (fuel : Nat) :
    ∀ a b : Int, 0 ≤ a → 0 ≤ b → 0 ≤ gcdAux fuel a b := by
  induction fuel with
  | zero => intro a b _ hb; exact hb
  | succ fuel ih =>
    intro a b ha hb
    rw [gcdAux]
    by_cases h : a = 0
    · rwa [if_pos h]
    · rw [if_neg h]
      exact ih _ _ (Int.fmod_nonneg hb ha) ha

/-- Bézout identity for the fuel-indexed extended Euclid, together with
agreement of its first component with the embedded `gcd`. -/
theorem gcdExtendedAux_spec (fuel : Nat) :
    ∀ a b : Int,
      a * (gcdExtendedAux fuel a b).2.1 + b * (gcdExtendedAux fuel a b).2.2 =
        (gcdExtendedAux fuel a b).1 ∧
      (gcdExtendedAux fuel a b).1 = gcdAux fuel a b := by
  induction fuel with
  | zero => intro a b; constructor <;> simp [gcdExtendedAux, gcdAux]
  | succ fuel ih =>
    intro a b
    rw [gcdExtendedAux, gcdAux]
    by_cases ha : a = 0
    · rw [if_pos ha, if_pos ha, ha]
      constructor <;> simp
    · rw [if_neg ha, if_neg ha]
      obtain ⟨h1, h2⟩ := ih (Int.fmod b a) a
      refine ⟨?_, h2⟩
      have hm : Int.fmod b a = b - a * b.fdiv a := Int.fmod_def b a
      calc a * ((gcdExtendedAux fuel (Int.fmod b a) a).2.2 -
              b.fdiv a * (gcdExtendedAux fuel (Int.fmod b a) a).2.1) +
            b * (gcdExtendedAux fuel (Int.fmod b a) a).2.1
          = Int.fmod b a * (gcdExtendedAux fuel (Int.fmod b a) a).2.1 +
              a * (gcdExtendedAux fuel (Int.fmod b a) a).2.2 := by rw [hm]; ring
        _ = (gcdExtendedAux fuel (Int.fmod b a) a).1 := h1

/-- Bézout identity for the embedded `gcdExtended`. -/
theorem gcdExtended_bezout (a b : Int) :
    a * (gcdExtended a b).2.1 + b * (gcdExtended a b).2.2 = (gcdExtended a b).1 :=
  (gcdExtendedAux_spec (a.natAbs + 1) a b).1

theorem gcdExtended_fst (a b : Int) : (gcdExtended a b).1 = gcd a b :=
  (gcdExtendedAux_spec (a.natAbs + 1) a b).2

/-! ## The alphabet codec -/

theorem letterToNum_of_mem {c : Char} (h : c ∈ ALPHABET) :
    letterToNum c = some (ALPHABET.indexOf c) := by
  simp [letterToNum, h]

theorem letterToNum_of_not_mem {c : Char} (h : c ∉ ALPHABET) :
    letterToNum c = none := by
  simp [letterToNum, h]

theorem indexOf_lt_len {c : Char} (h : c ∈ ALPHABET) :
    ALPHABET.indexOf c < ALPHABET_LEN :=
  List.indexOf_lt_length.mpr h

/-- Success characterization of the message-translation loop. -/
theorem translate_eq_ok {l : List Char} {nums : List Int} :
    translate l = .ok nums ↔
      (∀ c ∈ l, c ∈ ALPHABET) ∧
      nums = l.map (fun c => (ALPHABET.indexOf c : Int)) := by
  induction l generalizing nums with
  | nil => simp [translate, eq_comm]
  | cons c rest ih =>
    by_cases hc : c ∈ ALPHABET
    · rw [translate, letterToNum_of_mem hc]
      cases htr : translate rest with
      | error e =>
        simp only [htr, Except.map]
        constructor
        · intro h; exact absurd h (by simp)
        · rintro ⟨hmem, rfl⟩
          have : translate rest = .ok (rest.map (fun c => (ALPHABET.indexOf c : Int))) :=
            ih.mpr ⟨fun x hx => hmem x (List.mem_cons_of_mem _ hx), rfl⟩
          rw [htr] at this
          exact absurd this (by simp)
      | ok tail =>
        obtain ⟨hmem, rfl⟩ := ih.mp htr
        simp only [htr, Except.map]
        constructor
        · rintro h
          have h' := Except.ok.inj h
          subst h'
          exact ⟨fun x hx => by
            rcases List.mem_cons.mp hx with rfl | hx
            · exact hc
            · exact hmem x hx, by simp⟩
        · rintro ⟨_, rfl⟩
          simp
    · rw [translate, letterToNum_of_not_mem hc]
      constructor
      · intro h; exact absurd h (by simp)
      · rintro ⟨hmem, _⟩
        exact absurd (hmem c (List.mem_cons_self c rest)) hc

/-- A single unsupported symbol anywhere in the input aborts the
translation loop with the unsupported-symbol failure. -/
theorem translate_eq_error {l : List Char} (h : ∃ c ∈ l, c ∉ ALPHABET) :
    translate l = .error .unsupportedSymbol := by
  induction l with
  | nil => simp at h
  | cons c rest ih =>
    by_cases hc : c ∈ ALPHABET
    · rw [translate, letterToNum_of_mem hc]
      obtain ⟨x, hx, hxn⟩ := h
      rcases List.mem_cons.mp hx with rfl | hx
      · exact absurd hc hxn
      · rw [ih ⟨x, hx, hxn⟩]
        rfl
    · rw [translate, letterToNum_of_not_mem hc]

/-- Every index produced by `translate` lies in `[0, ALPHABET_LEN)`. -/
theorem translate_bounds {l : List Char} {nums : List Int}
    (h : translate l = .ok nums) :
    ∀ v ∈ nums, 0 ≤ v ∧ v < (ALPHABET_LEN : Int) := by
  obtain ⟨hmem, rfl⟩ := translate_eq_ok.mp h
  intro v hv
  obtain ⟨c, hc, rfl⟩ := List.mem_map.mp hv
  have := indexOf_lt_len (hmem c hc)
  omega

/-- In-range indices translate back to the alphabet letters at those
indices. -/
theorem untranslate_eq_ok {l : List Int}
    (h : ∀ v ∈ l, 0 ≤ v ∧ v < (ALPHABET_LEN : Int)) :
    untranslate l = .ok (l.map (fun v => ALPHABET.getD v.toNat ' ')) := by
  induction l with
  | nil => rfl
  | cons v rest ih =>
    have hv := h v (List.mem_cons_self v rest)
    have hlt : v.toNat < ALPHABET.length := by
      have : ALPHABET.length = ALPHABET_LEN := rfl
      omega
    rw [untranslate]
    have hsome : numToLetter v.toNat = some (ALPHABET.getD v.toNat ' ') := by
      simp [numToLetter, List.get?_eq_getElem?, List.getElem?_eq_getElem hlt,
        List.getD_eq_getElem?_getD]
    rw [hsome, ih (fun x hx => h x (List.mem_cons_of_mem _ hx))]
    rfl

/-- Translating then untranslating restores the message. -/
theorem untranslate_translate {l : List Char} (h : ∀ c ∈ l, c ∈ ALPHABET) :
    untranslate (l.map (fun c => (ALPHABET.indexOf c : Int))) = .ok l := by
  rw [untranslate_eq_ok]
  · congr 1
    rw [List.map_map]
    conv_rhs => rw [← List.map_id l]
    apply List.map_congr_left
    intro c hc
    have hlt : ALPHABET.indexOf c < ALPHABET.length := indexOf_lt_len (h c hc)
    simp only [Function.comp_apply, Int.toNat_natCast, id_eq,
      List.getD_eq_getElem?_getD, List.getElem?_eq_getElem hlt, Option.getD_some]
    exact List.getElem_indexOf hlt
  · intro v hv
    obtain ⟨c, hc, rfl⟩ := List.mem_map.mp hv
    have := indexOf_lt_len (h c hc)
    omega

/-- Untranslating then translating restores in-range index lists
(the alphabet has no repeated symbols). -/
theorem translate_untranslate {l : List Int}
    (h : ∀ v ∈ l, 0 ≤ v ∧ v < (ALPHABET_LEN : Int)) :
    translate (l.map (fun v => ALPHABET.getD v.toNat ' ')) = .ok l := by
  apply translate_eq_ok.mpr
  constructor
  · intro c hc
    obtain ⟨v, hv, rfl⟩ := List.mem_map.mp hc
    have hlt : v.toNat < ALPHABET.length := by
      have hb := h v hv
      have : ALPHABET.length = ALPHABET_LEN := rfl
      omega
    simp only [List.getD_eq_getElem?_getD, List.getElem?_eq_getElem hlt, Option.getD_some]
    exact List.getElem_mem hlt
  · rw [List.map_map]
    conv_lhs => rw [← List.map_id l]
    apply List.map_congr_left
    intro v hv
    have hb := h v hv
    have hlt : v.toNat < ALPHABET.length := by
      have : ALPHABET.length = ALPHABET_LEN := rfl
      omega
    simp only [Function.comp_apply, id_eq,
      List.getD_eq_getElem?_getD, List.getElem?_eq_getElem hlt, Option.getD_some]
    rw [List.indexOf_getElem alphabet_nodup v.toNat hlt]
    omega

/-! ## Shape of the key matrix -/

theorem buildRows_length (r c : Nat) (xs : List Int) :
    (buildRows r c xs).length = r := by
  induction r generalizing xs with
  | zero => rfl
  | succ r ih => simp [buildRows, ih]

theorem buildRows_row_length (r c : Nat) :
    ∀ xs : List Int, xs.length = r * c →
      ∀ row ∈ buildRows r c xs, row.length = c := by
  induction r with
  | zero => intro xs _ row hrow; simp [buildRows] at hrow
  | succ r ih =>
    intro xs hlen row hrow
    rw [buildRows] at hrow
    have hc : xs.length = r * c + c := by rw [hlen]; ring
    rcases List.mem_cons.mp hrow with rfl | hrow
    · rw [List.length_take]
      omega
    · exact ih (xs.drop c) (by rw [List.length_drop]; omega) row hrow

/-- Characterization of a successful key-matrix construction. -/
theorem stringToMat_eq_ok {s : List Char} {m : CipherMat} :
    CipherMat.stringToMat s = .ok m ↔
      intSqrt s.length * intSqrt s.length = s.length ∧
      (∀ c ∈ s, c ∈ ALPHABET) ∧
      m = ⟨buildRows (intSqrt s.length) (intSqrt s.length)
             (s.map (fun c => (ALPHABET.indexOf c : Int))),
           intSqrt s.length, intSqrt s.length⟩ := by
  rw [CipherMat.stringToMat]
  by_cases hsq : intSqrt s.length * intSqrt s.length ≠ s.length
  · rw [if_pos hsq]
    constructor
    · intro h; exact absurd h (by simp)
    · rintro ⟨h, _⟩; exact absurd h hsq
  · rw [if_neg hsq]
    push_neg at hsq
    cases htr : translate s with
    | error e =>
      simp only [Except.map]
      constructor
      · intro h; exact absurd h (by simp)
      · rintro ⟨_, hmem, _⟩
        have := translate_eq_ok.mpr ⟨hmem, rfl⟩
        rw [htr] at this
        exact absurd this (by simp)
    | ok nums =>
      obtain ⟨hmem, rfl⟩ := translate_eq_ok.mp htr
      simp only [Except.map]
      constructor
      · intro hmm
        exact ⟨hsq, hmem, (Except.ok.inj hmm).symm⟩
      · rintro ⟨_, _, rfl⟩
        rfl

/-- Shape facts about a successfully constructed key matrix. -/
theorem stringToMat_shape {s : List Char} {m : CipherMat}
    (h : CipherMat.stringToMat s = .ok m) :
    m.rows = intSqrt s.length ∧ m.columns = m.rows ∧
      m.mat.length = m.rows ∧ ∀ row ∈ m.mat, row.length = m.rows := by
  obtain ⟨hsq, _, rfl⟩ := stringToMat_eq_ok.mp h
  refine ⟨rfl, rfl, buildRows_length _ _ _, ?_⟩
  intro row hrow
  exact buildRows_row_length _ _ _ (by simp [hsq]) row hrow

/-- `inverse` preserves the dimensions and produces a well-shaped
matrix. -/
theorem inverse_shape {m mi : CipherMat} (h : m.inverse = .ok mi) :
    mi.rows = m.rows ∧ mi.columns = m.columns ∧
      mi.mat.length = m.rows ∧ ∀ row ∈ mi.mat, row.length = m.columns := by
  rw [CipherMat.inverse] at h
  by_cases hnil : m.mat = []
  · rw [if_pos hnil] at h; exact absurd h (by simp)
  · rw [if_neg hnil] at h
    by_cases h0 : det m.mat = 0
    · rw [if_pos h0] at h; exact absurd h (by simp)
    · rw [if_neg h0] at h
      by_cases h1 : (gcd (det m.mat) (ALPHABET_LEN : Int)).natAbs ≠ 1
      · rw [if_pos h1] at h; exact absurd h (by simp)
      · rw [if_neg h1] at h
        by_cases h2 : 0 < m.rows ∧ 0 < m.columns ∧ m.mat.length = 1
        · rw [if_pos h2] at h; exact absurd h (by simp)
        · rw [if_neg h2] at h
          have hmi := (Except.ok.inj h).symm
          subst hmi
          refine ⟨rfl, rfl, by simp, ?_⟩
          intro row hrow
          simp only [List.mem_map] at hrow
          obtain ⟨r, hr, rfl⟩ := hrow
          obtain ⟨a, _, hra⟩ := hr
          rw [← hra]
          simp

/-! ## The block loop -/

theorem chunkAux_flatten {n : Nat} (hn : 0 < n) :
    ∀ (fuel : Nat) (l : List Int), l.length ≤ fuel →
      (chunkAux fuel n l).flatten = l := by
  intro fuel
  induction fuel with
  | zero =>
    intro l hl
    have : l = [] := List.eq_nil_of_length_eq_zero (by omega)
    subst this; rfl
  | succ fuel ih =>
    intro l hl
    match l with
    | [] => rfl
    | x :: xs =>
      rw [chunkAux, List.flatten_cons,
        ih ((x :: xs).drop n) (by rw [List.length_drop]; simp at hl ⊢; omega)]
      exact List.take_append_drop n (x :: xs)

theorem chunkBlocks_flatten {n : Nat} (hn : 0 < n) (l : List Int) :
    (chunkBlocks n l).flatten = l :=
  chunkAux_flatten hn l.length l le_rfl

theorem chunkAux_block_length {n : Nat} (hn : 0 < n) :
    ∀ (fuel : Nat) (l : List Int), l.length ≤ fuel → n ∣ l.length →
      ∀ b ∈ chunkAux fuel n l, b.length = n := by
  intro fuel
  induction fuel with
  | zero =>
    intro l hl _ b hb
    have : l = [] := List.eq_nil_of_length_eq_zero (by omega)
    subst this; simp [chunkAux] at hb
  | succ fuel ih =>
    intro l hl hdvd b hb
    match l with
    | [] => simp [chunkAux] at hb
    | x :: xs =>
      rw [chunkAux] at hb
      rcases hdvd with ⟨k, hk⟩
      rcases k with _ | k
      · simp at hk
      · rw [Nat.mul_succ] at hk
        have hge : n ≤ (x :: xs).length := by omega
        rcases List.mem_cons.mp hb with rfl | hb
        · rw [List.length_take]; omega
        · refine ih _ (by rw [List.length_drop]; simp at hl ⊢; omega) ?_ b hb
          rw [List.length_drop]
          exact ⟨k, by omega⟩

theorem chunkBlocks_block_length {n : Nat} (hn : 0 < n) {l : List Int}
    (hdvd : n ∣ l.length) : ∀ b ∈ chunkBlocks n l, b.length = n :=
  chunkAux_block_length hn l.length l le_rfl hdvd

/-- Chunking the concatenation of blocks of length `n` recovers the
blocks. -/
theorem chunkAux_of_blocks {n : Nat} (hn : 0 < n) :
    ∀ (blocks : List (List Int)) (fuel : Nat),
      (∀ b ∈ blocks, b.length = n) → blocks.flatten.length ≤ fuel →
      chunkAux fuel n blocks.flatten = blocks := by
  intro blocks
  induction blocks with
  | nil => intro fuel _ _; cases fuel <;> rfl
  | cons b rest ih =>
    intro fuel hlen hfuel
    have hb : b.length = n := hlen b (List.mem_cons_self b rest)
    rw [List.flatten_cons] at hfuel ⊢
    rcases b with _ | ⟨y, ys⟩
    · simp at hb; omega
    · rcases fuel with _ | fuel
      · exfalso
        have : 0 < ((y :: ys) ++ rest.flatten).length := by simp
        omega
      · rw [List.cons_append, chunkAux, ← List.cons_append]
        have ht : ((y :: ys) ++ rest.flatten).take n = y :: ys := by
          rw [← hb]; exact List.take_left (y :: ys) rest.flatten
        have hd : ((y :: ys) ++ rest.flatten).drop n = rest.flatten := by
          rw [← hb]; exact List.drop_left (y :: ys) rest.flatten
        rw [ht, hd, ih fuel (fun x hx => hlen x (List.mem_cons_of_mem _ hx))
          (by rw [List.length_append] at hfuel; omega)]

theorem chunkBlocks_of_blocks {n : Nat} (hn : 0 < n)
    (blocks : List (List Int)) (hlen : ∀ b ∈ blocks, b.length = n) :
    chunkBlocks n blocks.flatten = blocks :=
  chunkAux_of_blocks hn blocks blocks.flatten.length hlen le_rfl

/-! ## The matrix-vector multiplication -/

theorem cipher_length (m : CipherMat) (block : List Int) :
    (m.cipher block).length = m.rows := by
  simp [CipherMat.cipher]

/-- Every coordinate of a ciphered block is a normalized residue. -/
theorem cipher_bounds (m : CipherMat) (block : List Int) :
    ∀ r ∈ m.cipher block, 0 ≤ r ∧ r < (ALPHABET_LEN : Int) := by
  intro r hr
  obtain ⟨row, _, rfl⟩ := List.mem_map.mp hr
  exact ⟨mod_nonneg _ _ alphabet_len_pos, mod_lt _ _ alphabet_len_pos⟩

/-! ## Behaviour of the driver -/

/-- Padding is applied before blocking: running the driver on a message
is the same as running it on the message pre-padded with the blank
symbol up to the next multiple of the block length. -/
theorem hillCipherCore_pad (m' : CipherMat) (msg : List Char) :
    hillCipherCore m' msg =
      hillCipherCore m' (msg ++ List.replicate
        ((m'.size - msg.length % m'.size) % m'.size) ' ') := by
  by_cases h0 : m'.size = 0
  · rw [hillCipherCore, hillCipherCore, if_pos h0, if_pos h0]
  · have hn : 0 < m'.size := Nat.pos_of_ne_zero h0
    rw [hillCipherCore, hillCipherCore, if_neg h0, if_neg h0]
    by_cases hr : msg.length % m'.size = 0
    · have hp : (m'.size - msg.length % m'.size) % m'.size = 0 := by
        rw [hr, Nat.sub_zero, Nat.mod_self]
      rw [hp, List.replicate_zero, List.append_nil]
    · have hlt : msg.length % m'.size < m'.size := Nat.mod_lt _ hn
      have hp : (m'.size - msg.length % m'.size) % m'.size =
          m'.size - msg.length % m'.size := Nat.mod_eq_of_lt (by omega)
      have hq := Nat.div_add_mod msg.length m'.size
      have hlen2 : (msg ++ List.replicate
          (m'.size - msg.length % m'.size) ' ').length % m'.size = 0 := by
        rw [List.length_append, List.length_replicate]
        have hs : msg.length + (m'.size - msg.length % m'.size) =
            m'.size * (msg.length / m'.size) + m'.size := by omega
        rw [hs, ← Nat.mul_succ, Nat.mul_mod_right]
      rw [hp, if_pos hr, if_neg (by simpa using hlen2)]

/-- A message with a symbol outside the alphabet aborts the driver with
the unsupported-symbol failure (for any installed matrix of nonzero
size). -/
theorem hillCipherCore_unsupported (m' : CipherMat) (msg : List Char)
    (h0 : m'.size ≠ 0) (hbad : ∃ c ∈ msg, c ∉ ALPHABET) :
    hillCipherCore m' msg = .error .unsupportedSymbol := by
  rw [hillCipherCore, if_neg h0]
  obtain ⟨c, hc, hcn⟩ := hbad
  by_cases hcond : msg.length % m'.size ≠ 0
  · rw [if_pos hcond]
    show (translate (msg ++ List.replicate (m'.size - msg.length % m'.size) ' ')).bind _ =
      Except.error CipherError.unsupportedSymbol
    rw [translate_eq_error ⟨c, List.mem_append_left _ hc, hcn⟩]
    rfl
  · rw [if_neg hcond]
    show (translate msg).bind _ = Except.error CipherError.unsupportedSymbol
    rw [translate_eq_error ⟨c, hc, hcn⟩]
    rfl

/-- Claim C5: a key whose length is not a perfect square makes every run
fail with the invalid-key-shape error, before any symbol of the key or
message is translated (the result does not depend on the symbols at
all). -/
theorem hillCipher_nonsquare_key (key : List Char)
    (h : ∀ k : Nat, k * k ≠ key.length) (msg : List Char) (enc : Bool) :
    hillCipher msg key enc = .error .invalidKeyShape := by
  have hsq : intSqrt key.length * intSqrt key.length ≠ key.length := h _
  rw [hillCipher, CipherMat.stringToMat, if_pos hsq]
  rfl

/-- Witness for claim C5 at the concrete key `"##"` (length 2, not a
perfect square, and both symbols outside the alphabet). -/
theorem hillCipher_nonsquare_key_witness :
    (∀ k : Nat, k * k ≠ (['#', '#'] : List Char).length) ∧
      hillCipher ['A'] ['#', '#'] true = .error .invalidKeyShape :=
  ⟨(intSqrt_square_check 2).mp (by decide),
    hillCipher_nonsquare_key ['#', '#']
      ((intSqrt_square_check 2).mp (by decide)) ['A'] true⟩

/-- Claim C10: the empty key passes the perfect-square shape check
(`stringToMat` succeeds with a 0×0 matrix), and an encoding run then
reaches the padding step, where `len(message) % blockLen` with
`blockLen = 0` is the source's unguarded division by zero. -/
theorem hillCipher_empty_key :
    CipherMat.stringToMat ([] : List Char) = .ok ⟨[], 0, 0⟩ ∧
      ∀ msg : List Char, hillCipher msg [] true = .error .zeroDivision :=
  ⟨rfl, fun _ => rfl⟩

/-- Claim C3 counterexample: decoding a one-symbol message with a 2×2
key succeeds and returns two symbols, so the decode path does pad the
message (the key `"BAAB"` is the identity matrix, making the padding
visible in the output). -/
theorem hillCipher_decode_pads :
    hillCipher ['C'] ['B', 'A', 'A', 'B'] false = .ok ['C', ' '] ∧
      (['C', ' '] : List Char).length ≠ (['C'] : List Char).length := by
  constructor
  · decide
  · decide

/-- Claim C3 amended: `hillCipher` pads the message with the blank
symbol to a multiple of the block length before blocking on both the
encode and the decode path.  (The block length is the integer square
root of the key length.) -/
theorem hillCipher_pads_both_paths (msg key : List Char) (enc : Bool) :
    hillCipher msg key enc =
      hillCipher (msg ++ List.replicate
        ((intSqrt key.length - msg.length % intSqrt key.length) %
          intSqrt key.length) ' ') key enc := by
  rw [hillCipher, hillCipher]
  cases hs : CipherMat.stringToMat key with
  | error e => rfl
  | ok m =>
    obtain ⟨hr, _, _, _⟩ := stringToMat_shape hs
    show (if enc = true then Except.ok m else m.inverse).bind
        (fun m' => hillCipherCore m' msg) =
      (if enc = true then Except.ok m else m.inverse).bind
        (fun m' => hillCipherCore m' (msg ++ List.replicate
          ((intSqrt key.length - msg.length % intSqrt key.length) %
            intSqrt key.length) ' '))
    cases he : (if enc = true then Except.ok m else m.inverse) with
    | error e => rfl
    | ok m' =>
      have hsz : m'.size = intSqrt key.length := by
        cases enc with
        | true =>
          simp only [if_true] at he
          rw [← Except.ok.inj he, CipherMat.size, ← hr]
        | false =>
          simp only [Bool.false_eq_true, if_false] at he
          rw [CipherMat.size, (inverse_shape he).1, hr]
      show hillCipherCore m' msg = hillCipherCore m' _
      rw [← hsz]
      exact hillCipherCore_pad m' msg

/-- Claim C6 counterexample: a key of non-square length whose symbols
are outside the alphabet fails with the invalid-key-shape error, not the
unsupported-symbol error, because the shape check runs first. -/
theorem hillCipher_unsupported_key_shape_first :
    hillCipher ['A'] ['#', '#'] true = .error .invalidKeyShape ∧
      CipherError.invalidKeyShape ≠ CipherError.unsupportedSymbol := by
  constructor
  · decide
  · decide

/-- Claim C6 amended: provided the key is nonempty of perfect-square
length and, when decoding, its matrix has a modular inverse, a message
or key containing a character absent from the alphabet makes the whole
run fail with the unsupported-symbol error; no transformed output is
produced. -/
theorem hillCipher_unsupported_symbol (msg key : List Char) (enc : Bool)
    (hsq : intSqrt key.length * intSqrt key.length = key.length)
    (hne : key ≠ [])
    (hbad : (∃ c ∈ msg, c ∉ ALPHABET) ∨ (∃ c ∈ key, c ∉ ALPHABET))
    (hdec : enc = false → (∀ c ∈ key, c ∈ ALPHABET) →
      ∃ mi, (CipherMat.stringToMat key).bind CipherMat.inverse = .ok mi) :
    hillCipher msg key enc = .error .unsupportedSymbol := by
  by_cases hkeyall : ∀ c ∈ key, c ∈ ALPHABET
  · -- the key is fully supported, so the bad symbol is in the message
    have hbadmsg : ∃ c ∈ msg, c ∉ ALPHABET := by
      rcases hbad with h | ⟨c, hc, hcn⟩
      · exact h
      · exact absurd (hkeyall c hc) hcn
    have hsm : CipherMat.stringToMat key =
        .ok ⟨buildRows (intSqrt key.length) (intSqrt key.length)
              (key.map (fun c => (ALPHABET.indexOf c : Int))),
            intSqrt key.length, intSqrt key.length⟩ :=
      stringToMat_eq_ok.mpr ⟨hsq, hkeyall, rfl⟩
    have hn1 : intSqrt key.length ≠ 0 := by
      intro h
      rw [h] at hsq
      exact hne (List.eq_nil_of_length_eq_zero (by omega))
    rw [hillCipher, hsm]
    cases enc with
    | true =>
      show hillCipherCore _ msg = _
      exact hillCipherCore_unsupported _ _ hn1 hbadmsg
    | false =>
      obtain ⟨mi, hmi⟩ := hdec rfl hkeyall
      rw [hsm] at hmi
      have hmi2 : CipherMat.inverse
          ⟨buildRows (intSqrt key.length) (intSqrt key.length)
            (key.map (fun c => (ALPHABET.indexOf c : Int))),
           intSqrt key.length, intSqrt key.length⟩ = .ok mi := hmi
      show Except.bind (CipherMat.inverse
          ⟨buildRows (intSqrt key.length) (intSqrt key.length)
            (key.map (fun c => (ALPHABET.indexOf c : Int))),
           intSqrt key.length, intSqrt key.length⟩)
          (fun m => hillCipherCore m msg) = _
      rw [hmi2]
      show hillCipherCore mi msg = _
      have hszi : mi.size ≠ 0 := by
        have hpr := (inverse_shape hmi2).1
        rw [CipherMat.size, hpr]
        exact hn1
      exact hillCipherCore_unsupported _ _ hszi hbadmsg
  · -- the key itself contains an unsupported symbol
    push_neg at hkeyall
    obtain ⟨c, hc, hcn⟩ := hkeyall
    have hsm : CipherMat.stringToMat key = .error .unsupportedSymbol := by
      rw [CipherMat.stringToMat, if_neg (fun h => h hsq),
        translate_eq_error ⟨c, hc, hcn⟩]
      rfl
    rw [hillCipher, hsm]
    rfl

/-- Witness for the amended claim C6: encoding the message `"#"` with
the supported one-letter key `"B"` fails with the unsupported-symbol
error. -/
theorem hillCipher_unsupported_symbol_witness :
    (intSqrt (['B'] : List Char).length * intSqrt (['B'] : List Char).length =
        (['B'] : List Char).length) ∧
      (['B'] : List Char) ≠ [] ∧
      ((∃ c ∈ (['#'] : List Char), c ∉ ALPHABET) ∨
        (∃ c ∈ (['B'] : List Char), c ∉ ALPHABET)) ∧
      hillCipher ['#'] ['B'] true = .error .unsupportedSymbol :=
  ⟨by decide, by decide, Or.inl (by decide),
    hillCipher_unsupported_symbol ['#'] ['B'] true (by decide) (by decide)
      (Or.inl (by decide)) (fun h => Bool.noConfusion h)⟩

theorem flatten_map_singleton (l : List Int) :
    (l.map (fun v => [v])).flatten = l := by
  induction l with
  | nil => rfl
  | cons v t ih => simp [ih]

/-- With block length 1 every symbol is its own block. -/
theorem chunkBlocks_one (l : List Int) :
    chunkBlocks 1 l = l.map (fun v => [v]) := by
  have h := chunkBlocks_of_blocks (n := 1) one_pos (l.map (fun v => [v]))
    (by intro b hb; obtain ⟨v, _, rfl⟩ := List.mem_map.mp hb; rfl)
  rw [flatten_map_singleton] at h
  exact h

/-- Claim C4 counterexample: with the one-letter key `"C"` (scalar 2)
and message `"B"` (index 1), the engine produces the symbol of index
`2 * 1 = 2` (the letter `C`), not the symbol of index `(1 + 2) mod M`
(the letter `D`): the N = 1 case is scalar modular multiplication, not
Caesar-style modular addition. -/
theorem hillCipher_single_key_not_addition :
    letterToNum 'B' = some 1 ∧ letterToNum 'C' = some 2 ∧
      hillCipher ['B'] ['C'] true = .ok ['C'] ∧
      numToLetter ((1 + 2) % ALPHABET_LEN) = some 'D' ∧ ('C' : Char) ≠ 'D' := by
  refine ⟨by decide, by decide, by decide, by decide, by decide⟩

/-- Claim C4 amended: for a one-letter key of index `k`, the engine
degenerates to the scalar case with `k` applied by modular
multiplication: each output symbol is the alphabet symbol at index
`(k * input index) mod M`. -/
theorem hillCipher_single_key_scalar (msg : List Char) (c : Char) (k : Nat)
    (hc : letterToNum c = some k) (hmsg : ∀ a ∈ msg, a ∈ ALPHABET) :
    hillCipher msg [c] true =
      .ok (msg.map (fun a =>
        ALPHABET.getD ((k * ALPHABET.indexOf a) % ALPHABET_LEN) ' ')) := by
  have hcmem : c ∈ ALPHABET := by
    by_contra h
    rw [letterToNum_of_not_mem h] at hc
    exact Option.noConfusion hc
  have hk : k = ALPHABET.indexOf c := by
    rw [letterToNum_of_mem hcmem] at hc
    exact (Option.some.inj hc).symm
  have hsm : CipherMat.stringToMat [c] =
      .ok ⟨[[(ALPHABET.indexOf c : Int)]], 1, 1⟩ :=
    stringToMat_eq_ok.mpr
      ⟨by show intSqrt 1 * intSqrt 1 = 1; decide, by simpa using hcmem, rfl⟩
  rw [hillCipher, hsm]
  show hillCipherCore ⟨[[(ALPHABET.indexOf c : Int)]], 1, 1⟩ msg = _
  rw [hillCipherCore, if_neg (by simp [CipherMat.size]),
    if_neg (by simp [CipherMat.size, Nat.mod_one])]
  show (translate msg).bind _ = _
  rw [translate_eq_ok.mpr ⟨hmsg, rfl⟩]
  show untranslate ((chunkBlocks 1
      (msg.map (fun a => (ALPHABET.indexOf a : Int)))).map
        (CipherMat.cipher ⟨[[(ALPHABET.indexOf c : Int)]], 1, 1⟩)).flatten = _
  have hcb : ∀ v : Int,
      (⟨[[(ALPHABET.indexOf c : Int)]], 1, 1⟩ : CipherMat).cipher [v] =
        [mod ((ALPHABET.indexOf c : Int) * v) (ALPHABET_LEN : Int)] := by
    intro v
    have hr1 : List.range 1 = [0] := rfl
    simp [CipherMat.cipher, hr1]
  rw [chunkBlocks_one, List.map_map]
  have hmaps : (msg.map (fun a => (ALPHABET.indexOf a : Int))).map
      ((CipherMat.cipher ⟨[[(ALPHABET.indexOf c : Int)]], 1, 1⟩) ∘ (fun v => [v])) =
      (msg.map (fun a => (ALPHABET.indexOf a : Int))).map
        (fun v => [mod ((ALPHABET.indexOf c : Int) * v) (ALPHABET_LEN : Int)]) :=
    List.map_congr_left (fun v _ => hcb v)
  rw [hmaps, List.map_map]
  have hflat : (msg.map ((fun v => [mod ((ALPHABET.indexOf c : Int) * v)
        (ALPHABET_LEN : Int)]) ∘ (fun a => (ALPHABET.indexOf a : Int)))) =
      (msg.map (fun a =>
        [mod ((ALPHABET.indexOf c : Int) * (ALPHABET.indexOf a : Int))
          (ALPHABET_LEN : Int)])) := rfl
  rw [hflat]
  have hsing : (msg.map (fun a =>
      [mod ((ALPHABET.indexOf c : Int) * (ALPHABET.indexOf a : Int))
        (ALPHABET_LEN : Int)])).flatten =
      msg.map (fun a =>
        mod ((ALPHABET.indexOf c : Int) * (ALPHABET.indexOf a : Int))
          (ALPHABET_LEN : Int)) := by
    have h1 : msg.map (fun a =>
        [mod ((ALPHABET.indexOf c : Int) * (ALPHABET.indexOf a : Int))
          (ALPHABET_LEN : Int)]) =
        (msg.map (fun a =>
          mod ((ALPHABET.indexOf c : Int) * (ALPHABET.indexOf a : Int))
            (ALPHABET_LEN : Int))).map (fun v => [v]) := by
      rw [List.map_map]; rfl
    rw [h1, flatten_map_singleton]
  rw [hsing]
  have hbounds : ∀ v ∈ msg.map (fun a =>
      mod ((ALPHABET.indexOf c : Int) * (ALPHABET.indexOf a : Int))
        (ALPHABET_LEN : Int)), 0 ≤ v ∧ v < (ALPHABET_LEN : Int) := by
    intro v hv
    obtain ⟨a, _, rfl⟩ := List.mem_map.mp hv
    exact ⟨mod_nonneg _ _ alphabet_len_pos, mod_lt _ _ alphabet_len_pos⟩
  rw [untranslate_eq_ok hbounds, List.map_map]
  congr 1
  apply List.map_congr_left
  intro a ha
  have hia : ALPHABET.indexOf a < ALPHABET_LEN := indexOf_lt_len (hmsg a ha)
  have hmodv : mod ((ALPHABET.indexOf c : Int) * (ALPHABET.indexOf a : Int))
      (ALPHABET_LEN : Int) =
      ((ALPHABET.indexOf c * ALPHABET.indexOf a) % ALPHABET_LEN : Nat) := by
    rw [mod_eq_emod _ _ alphabet_len_pos]
    push_cast
    rfl
  simp only [Function.comp_apply, hmodv, Int.toNat_natCast, hk]

/-- Witness for the amended claim C4: key `"C"` (scalar 2) on message
`"B"` (index 1) yields the symbol of index 2. -/
theorem hillCipher_single_key_scalar_witness :
    (letterToNum 'C' = some 2) ∧ (∀ a ∈ (['B'] : List Char), a ∈ ALPHABET) ∧
      hillCipher ['B'] ['C'] true =
        .ok ((['B'] : List Char).map (fun a =>
          ALPHABET.getD ((2 * ALPHABET.indexOf a) % ALPHABET_LEN) ' ')) :=
  ⟨by decide, by decide,
    hillCipher_single_key_scalar ['B'] 'C' 2 (by decide) (by decide)⟩

/-- Claim C8: for every positive divisor, `mod` returns the normalized
residue in `[0, divisor)` congruent to its argument; consequently every
index produced by `CipherMat.cipher` lies in `[0, ALPHABET_LEN)` and the
alphabet lookup of `numToLetter` never faults on it. -/
theorem mod_normalizes_and_lookup_safe :
    (∀ num divisor : Int, 0 < divisor →
        0 ≤ mod num divisor ∧ mod num divisor < divisor ∧
          mod num divisor % divisor = num % divisor) ∧
      ∀ (m : CipherMat) (block : List Int), ∀ r ∈ m.cipher block,
        0 ≤ r ∧ r < (ALPHABET_LEN : Int) ∧ (numToLetter r.toNat).isSome = true := by
  constructor
  · intro num d hd
    exact ⟨mod_nonneg _ _ hd, mod_lt _ _ hd, mod_congr _ _ hd⟩
  · intro m block r hr
    obtain ⟨h1, h2⟩ := cipher_bounds m block r hr
    refine ⟨h1, h2, ?_⟩
    have hlt : r.toNat < ALPHABET.length := by
      have he : ALPHABET.length = ALPHABET_LEN := rfl
      omega
    simp [numToLetter, List.get?_eq_getElem?, List.getElem?_eq_getElem hlt]

/-- Witness for claim C8 at the concrete values `num = -3`,
`divisor = 5` and one concrete ciphered block. -/
theorem mod_normalizes_witness :
    (0 < (5 : Int)) ∧
      (0 ≤ mod (-3) 5 ∧ mod (-3) 5 < 5 ∧ mod (-3) 5 % 5 = (-3) % 5) :=
  ⟨by decide, mod_normalizes_and_lookup_safe.1 (-3) 5 (by decide)⟩

/-! ## The determinant computes the mathematical determinant -/

theorem range_map_sum (k : Nat) (f : Nat → Int) :
    ((List.range k).map f).sum = ∑ i ∈ Finset.range k, f i := by
  induction k with
  | zero => rfl
  | succ k ih =>
    rw [List.range_succ, List.map_append, List.sum_append,
      Finset.sum_range_succ, ih]
    simp

/-- The source's alternating-sign convention is `(-1)^column`. -/
theorem sign_eq_neg_one_pow (j : Nat) :
    (if j % 2 = 0 then (1 : Int) else -1) = (-1) ^ j := by
  rcases Nat.even_or_odd j with h | h
  · rw [if_pos (Nat.even_iff.mp h), h.neg_one_pow]
  · rw [if_neg (by rw [Nat.odd_iff.mp h]; decide), h.neg_one_pow]

/-- Reading a row of the column-deleted minor. -/
theorem minorCols_getD (j : Nat) (rows : List (List Int)) (i : Nat) :
    (minorCols j rows).getD i [] =
      (rows.getD i []).take j ++ (rows.getD i []).drop (j + 1) := by
  by_cases h : i < rows.length
  · rw [minorCols]
    simp [List.getD_eq_getElem?_getD, List.getElem?_map,
      List.getElem?_eq_getElem h]
  · have h1 : (minorCols j rows).length ≤ i := by
      rw [minorCols, List.length_map]; omega
    have h2 : rows.length ≤ i := by omega
    rw [List.getD_eq_getElem?_getD, List.getElem?_eq_none h1,
      List.getD_eq_getElem?_getD, List.getElem?_eq_none h2]
    simp

/-- Reading an entry of a list with position `j` deleted
(`l[:j] + l[j+1:]`): entries at or past `j` shift left by one. -/
theorem removed_at_getD {α : Type} (row : List α) (d : α) (j kv : Nat)
    (hj : j < row.length) :
    (row.take j ++ row.drop (j + 1)).getD kv d =
      row.getD (if kv < j then kv else kv + 1) d := by
  have hjt : (row.take j).length = j := by
    rw [List.length_take]; omega
  by_cases hk : kv < j
  · rw [if_pos hk, List.getD_eq_getElem?_getD,
      List.getElem?_append_left (by omega),
      List.getElem?_take_of_lt hk, List.getD_eq_getElem?_getD]
  · rw [if_neg hk, List.getD_eq_getElem?_getD,
      List.getElem?_append_right (by omega),
      List.getElem?_drop, List.getD_eq_getElem?_getD, hjt]
    congr 2
    omega

theorem succAbove_val {n : Nat} (j : Fin (n + 2)) (k : Fin (n + 1)) :
    ((j.succAbove k : Fin (n + 2)) : Nat) =
      if (k : Nat) < (j : Nat) then (k : Nat) else (k : Nat) + 1 := by
  by_cases h : Fin.castSucc k < j
  · rw [Fin.succAbove, if_pos h, Fin.coe_castSucc,
      if_pos (by rw [Fin.lt_def, Fin.coe_castSucc] at h; exact h)]
  · rw [Fin.succAbove, if_neg h, Fin.val_succ,
      if_neg (by rw [Fin.lt_def, Fin.coe_castSucc] at h; exact h)]

/-- The source's minor (delete row 0 and one column) is Mathlib's
`submatrix` along `Fin.succ` and `Fin.succAbove`. -/
theorem toMatrix_minor (n : Nat) (firstRow : List Int)
    (lowerRows : List (List Int)) (hlen : lowerRows.length = n + 1)
    (hrow : ∀ row ∈ lowerRows, row.length = n + 2) (j : Fin (n + 2)) :
    toMatrix (n + 1) (minorCols (j : Nat) lowerRows) =
      (toMatrix (n + 2) (firstRow :: lowerRows)).submatrix Fin.succ
        j.succAbove := by
  ext i k
  rw [show toMatrix (n + 1) (minorCols (j : Nat) lowerRows) i k =
      ((minorCols (j : Nat) lowerRows).getD i []).getD k 0 from rfl]
  rw [minorCols_getD]
  have hi : (i : Nat) < lowerRows.length := by rw [hlen]; exact i.isLt
  have hrl : (lowerRows.getD (i : Nat) []).length = n + 2 := by
    rw [List.getD_eq_getElem?_getD, List.getElem?_eq_getElem hi]
    exact hrow _ (List.getElem_mem hi)
  rw [removed_at_getD _ 0 _ _ (by rw [hrl]; exact j.isLt)]
  rw [show ((toMatrix (n + 2) (firstRow :: lowerRows)).submatrix Fin.succ
        j.succAbove) i k =
      ((firstRow :: lowerRows).getD ((i : Nat) + 1) []).getD
        ((j.succAbove k : Fin (n + 2)) : Nat) 0 from rfl]
  rw [succAbove_val]
  rfl

/-- The recursive Laplace expansion of the source computes the
mathematical determinant of the embedded matrix. -/
theorem detAux_eq_det (n : Nat) :
    ∀ mat : List (List Int), mat.length = n + 1 →
      (∀ row ∈ mat, row.length = n + 1) →
      detAux (n + 1) mat = (toMatrix (n + 1) mat).det := by
  induction n with
  | zero =>
    intro mat hlen _
    match mat with
    | [row] =>
      rw [Matrix.det_fin_one]
      show row.headD 0 = ((([row] : List (List Int)).getD 0 []).getD 0 0)
      cases row <;> rfl
  | succ n ih =>
    intro mat hlen hrow
    match mat with
    | firstRow :: lowerRows =>
      have hfr : firstRow.length = n + 2 :=
        hrow firstRow (List.mem_cons_self _ _)
      have hlr : lowerRows.length = n + 1 := by
        simpa using hlen
      have hlrow : ∀ row ∈ lowerRows, row.length = n + 2 :=
        fun row hr => hrow row (List.mem_cons_of_mem _ hr)
      rw [detAux, hfr, Matrix.det_succ_row_zero, range_map_sum,
        ← Fin.sum_univ_eq_sum_range]
      apply Finset.sum_congr rfl
      intro j _
      rw [sign_eq_neg_one_pow]
      have hmlen : (minorCols (j : Nat) lowerRows).length = n + 1 := by
        rw [minorCols, List.length_map, hlr]
      have hmrow : ∀ row ∈ minorCols (j : Nat) lowerRows,
          row.length = n + 1 := by
        intro row hr
        obtain ⟨r, hrmem, rfl⟩ := List.mem_map.mp hr
        have := hlrow r hrmem
        rw [List.length_append, List.length_take, List.length_drop]
        have hj := j.isLt
        omega
      rw [ih (minorCols (j : Nat) lowerRows) hmlen hmrow,
        toMatrix_minor n firstRow lowerRows hlr hlrow j]
      rfl

/-- Claim C7: for every nonempty square integer matrix, the source's
recursive Laplace expansion `det` returns the mathematical determinant
(in exact integer arithmetic). -/
theorem det_laplace_correct (mat : List (List Int)) (hne : mat ≠ [])
    (hsq : ∀ row ∈ mat, row.length = mat.length) :
    det mat = (toMatrix mat.length mat).det := by
  obtain ⟨n, hn⟩ : ∃ n, mat.length = n + 1 := by
    cases mat with
    | nil => exact absurd rfl hne
    | cons r t => exact ⟨t.length, by simp⟩
  rw [det, hn]
  exact detAux_eq_det n mat hn (fun r hr => by rw [hsq r hr, hn])

/-- Witness for claim C7 at the concrete matrix [[1,2],[3,4]]. -/
theorem det_laplace_correct_witness :
    (([[1, 2], [3, 4]] : List (List Int)) ≠ []) ∧
      (∀ row ∈ ([[1, 2], [3, 4]] : List (List Int)),
        row.length = ([[1, 2], [3, 4]] : List (List Int)).length) ∧
      det [[1, 2], [3, 4]] =
        (toMatrix ([[1, 2], [3, 4]] : List (List Int)).length
          [[1, 2], [3, 4]]).det :=
  ⟨by decide, by decide,
    det_laplace_correct [[1, 2], [3, 4]] (by decide) (by decide)⟩

/-! ## Correctness of the modular inverse -/

theorem range_map_getD {α : Type} (N : Nat) (f : Nat → α) (r : Nat)
    (hr : r < N) (d : α) :
    ((List.range N).map f).getD r d = f r := by
  rw [List.getD_eq_getElem?_getD, List.getElem?_map, List.getElem?_range hr]
  rfl

/-- The source's row- and column-deleted minor is Mathlib's `submatrix`
along the two `succAbove` embeddings. -/
theorem toMatrix_minor_rc (n : Nat) (mat : List (List Int))
    (hlen : mat.length = n + 2) (hrow : ∀ row ∈ mat, row.length = n + 2)
    (r c : Fin (n + 2)) :
    toMatrix (n + 1) (minorCols (c : Nat)
        (mat.take (r : Nat) ++ mat.drop ((r : Nat) + 1))) =
      (toMatrix (n + 2) mat).submatrix r.succAbove c.succAbove := by
  ext i k
  rw [show toMatrix (n + 1) (minorCols (c : Nat)
        (mat.take (r : Nat) ++ mat.drop ((r : Nat) + 1))) i k =
      ((minorCols (c : Nat)
        (mat.take (r : Nat) ++ mat.drop ((r : Nat) + 1))).getD i []).getD k 0
    from rfl]
  rw [minorCols_getD,
    removed_at_getD mat [] (r : Nat) i (by rw [hlen]; exact r.isLt)]
  have hidx : (if (i : Nat) < (r : Nat) then (i : Nat) else (i : Nat) + 1) <
      mat.length := by
    rw [hlen]
    have h1 := i.isLt
    have h2 := r.isLt
    split <;> omega
  have hrl : (mat.getD
      (if (i : Nat) < (r : Nat) then (i : Nat) else (i : Nat) + 1) []).length =
      n + 2 := by
    rw [List.getD_eq_getElem?_getD, List.getElem?_eq_getElem hidx]
    exact hrow _ (List.getElem_mem hidx)
  rw [removed_at_getD _ 0 (c : Nat) (k : Nat) (by rw [hrl]; exact c.isLt)]
  rw [show ((toMatrix (n + 2) mat).submatrix r.succAbove c.succAbove) i k =
      (mat.getD ((r.succAbove i : Fin (n + 2)) : Nat) []).getD
        ((c.succAbove k : Fin (n + 2)) : Nat) 0 from rfl]
  rw [succAbove_val, succAbove_val]

/-- The validity checks passed by a successful `inverse`. -/
theorem inverse_ok_checks {m mi : CipherMat} (h : m.inverse = .ok mi) :
    det m.mat ≠ 0 ∧ (gcd (det m.mat) (ALPHABET_LEN : Int)).natAbs = 1 ∧
      m.mat ≠ [] ∧ ¬(0 < m.rows ∧ 0 < m.columns ∧ m.mat.length = 1) := by
  rw [CipherMat.inverse] at h
  by_cases hnil : m.mat = []
  · rw [if_pos hnil] at h; exact absurd h (by simp)
  · rw [if_neg hnil] at h
    by_cases h0 : det m.mat = 0
    · rw [if_pos h0] at h; exact absurd h (by simp)
    · rw [if_neg h0] at h
      by_cases h1 : (gcd (det m.mat) (ALPHABET_LEN : Int)).natAbs ≠ 1
      · rw [if_pos h1] at h; exact absurd h (by simp)
      · rw [if_neg h1] at h
        by_cases h2 : 0 < m.rows ∧ 0 < m.columns ∧ m.mat.length = 1
        · rw [if_pos h2] at h; exact absurd h (by simp)
        · push_neg at h1
          exact ⟨h0, h1, hnil, h2⟩

/-- The entries of a successfully computed modular inverse: transposed
signed cofactor, scaled by the modular inverse of the determinant and
normalized. -/
theorem inverse_ok_entry {m mi : CipherMat} (h : m.inverse = .ok mi)
    {r c : Nat} (hr : r < m.rows) (hcr : c < m.rows) (hrc : r < m.columns)
    (hcc : c < m.columns) :
    (mi.mat.getD r []).getD c 0 =
      mod (((if (c + r) % 2 = 0 then (1 : Int) else -1) *
          det (minorCols r (m.mat.take c ++ m.mat.drop (c + 1)))) *
        mod ((gcdExtended (mod (det m.mat) (ALPHABET_LEN : Int))
            (ALPHABET_LEN : Int)).2.1) (ALPHABET_LEN : Int))
        (ALPHABET_LEN : Int) := by
  rw [CipherMat.inverse] at h
  by_cases hnil : m.mat = []
  · rw [if_pos hnil] at h; exact absurd h (by simp)
  · rw [if_neg hnil] at h
    by_cases h0 : det m.mat = 0
    · rw [if_pos h0] at h; exact absurd h (by simp)
    · rw [if_neg h0] at h
      by_cases h1 : (gcd (det m.mat) (ALPHABET_LEN : Int)).natAbs ≠ 1
      · rw [if_pos h1] at h; exact absurd h (by simp)
      · rw [if_neg h1] at h
        by_cases h2 : 0 < m.rows ∧ 0 < m.columns ∧ m.mat.length = 1
        · rw [if_pos h2] at h; exact absurd h (by simp)
        · rw [if_neg h2] at h
          have hmi := (Except.ok.inj h).symm
          subst hmi
          show ((((List.range m.rows).map _).map _).getD r []).getD c 0 = _
          rw [List.map_map, range_map_getD _ _ _ hr, Function.comp_apply,
            List.map_map, range_map_getD _ _ _ hcc, Function.comp_apply,
            range_map_getD _ _ _ hcr, range_map_getD _ _ _ hrc]

/-- Reduction with `mod` is invisible in `ZMod ALPHABET_LEN`. -/
theorem intCast_mod_eq (z : Int) :
    ((mod z (ALPHABET_LEN : Int) : Int) : ZMod ALPHABET_LEN) = (z : ZMod ALPHABET_LEN) := by
  rw [ZMod.intCast_eq_intCast_iff']
  exact mod_congr z _ alphabet_len_pos

/-- The scalar produced from the extended Euclidean algorithm is the
modular inverse of the determinant (in `ZMod ALPHABET_LEN`), whenever
the determinant passed the coprimality check. -/
theorem detModInverse_spec (D : Int)
    (hg1 : (gcd D (ALPHABET_LEN : Int)).natAbs = 1) :
    (D : ZMod ALPHABET_LEN) *
      ((mod ((gcdExtended (mod D (ALPHABET_LEN : Int)) (ALPHABET_LEN : Int)).2.1)
        (ALPHABET_LEN : Int) : Int) : ZMod ALPHABET_LEN) = 1 := by
  set L : Int := (ALPHABET_LEN : Int) with hL
  have hLpos : 0 < L := alphabet_len_pos
  have hbez := gcdExtended_bezout (mod D L) L
  have hfst := gcdExtended_fst (mod D L) L
  have hgnonneg : 0 ≤ gcd (mod D L) L :=
    gcdAux_nonneg _ _ _ (mod_nonneg _ _ hLpos) (le_of_lt hLpos)
  have hgcdDL : Int.gcd (mod D L) L = Int.gcd D L := by
    rw [mod_eq_emod _ _ hLpos, ← Int.fmod_eq_emod _ (le_of_lt hLpos),
      gcd_fmod_step L D, Int.gcd_comm]
  have hintgcd : Int.gcd D L = 1 := by rw [← gcd_natAbs D L]; exact hg1
  have hgone : gcd (mod D L) L = 1 := by
    have h1 : (gcd (mod D L) L).natAbs = 1 := by
      rw [gcd_natAbs, hgcdDL, hintgcd]
    omega
  have hchain : mod D L * (gcdExtended (mod D L) L).2.1 +
      L * (gcdExtended (mod D L) L).2.2 = 1 := by
    rw [hbez, hfst, hgone]
  have hcast := congrArg (fun z : Int => (z : ZMod ALPHABET_LEN)) hchain
  push_cast at hcast
  rw [intCast_mod_eq D] at hcast
  have hzero : ((ALPHABET_LEN : Int) : ZMod ALPHABET_LEN) = 0 := by
    push_cast
    exact ZMod.natCast_self _
  rw [hL] at hcast
  rw [hzero, zero_mul, add_zero] at hcast
  rw [intCast_mod_eq, hcast]

/-- A successful `inverse` really computes the modular inverse matrix:
the product of the original matrix and the produced matrix is the
identity over `ZMod ALPHABET_LEN` (stated for genuinely square matrices
of size at least 2; a 1×1 matrix makes the source crash instead). -/
theorem inverse_mul_identity {n : Nat} (m mi : CipherMat) (hn2 : 2 ≤ n)
    (hr : m.rows = n) (hcol : m.columns = n) (hml : m.mat.length = n)
    (hrow : ∀ row ∈ m.mat, row.length = n)
    (h : m.inverse = .ok mi) :
    (toMatrix n m.mat).map (Int.cast : Int → ZMod ALPHABET_LEN) *
      (toMatrix n mi.mat).map Int.cast = 1 := by
  obtain ⟨k, rfl⟩ : ∃ k, n = k + 2 := ⟨n - 2, by omega⟩
  obtain ⟨hD0, hg1, -, -⟩ := inverse_ok_checks h
  have hentry : ∀ i j : Fin (k + 2),
      ((toMatrix (k + 2) mi.mat).map (Int.cast : Int → ZMod ALPHABET_LEN)) i j =
        ((Matrix.adjugate (toMatrix (k + 2) m.mat) i j : Int) : ZMod ALPHABET_LEN) *
          ((mod ((gcdExtended (mod (det m.mat) (ALPHABET_LEN : Int))
              (ALPHABET_LEN : Int)).2.1) (ALPHABET_LEN : Int) : Int) :
            ZMod ALPHABET_LEN) := by
    intro i j
    have hminor : det (minorCols (i : Nat)
        (m.mat.take (j : Nat) ++ m.mat.drop ((j : Nat) + 1))) =
        ((toMatrix (k + 2) m.mat).submatrix
          (Fin.succAbove j) (Fin.succAbove i)).det := by
      have hmlen : (minorCols (i : Nat)
          (m.mat.take (j : Nat) ++ m.mat.drop ((j : Nat) + 1))).length =
          k + 1 := by
        rw [minorCols, List.length_map, List.length_append,
          List.length_take, List.length_drop]
        have hj := j.isLt
        omega
      have hmrow : ∀ row ∈ minorCols (i : Nat)
          (m.mat.take (j : Nat) ++ m.mat.drop ((j : Nat) + 1)),
          row.length = k + 1 := by
        intro row hrw
        obtain ⟨r0, hr0, rfl⟩ := List.mem_map.mp hrw
        have hr0len : r0.length = k + 2 := by
          rcases List.mem_append.mp hr0 with hh | hh
          · exact hrow r0 (List.mem_of_mem_take hh)
          · exact hrow r0 (List.mem_of_mem_drop hh)
        rw [List.length_append, List.length_take, List.length_drop, hr0len]
        have hi := i.isLt
        omega
      rw [det, hmlen, detAux_eq_det k _ hmlen hmrow,
        toMatrix_minor_rc k m.mat hml hrow j i]
    rw [show ((toMatrix (k + 2) mi.mat).map
          (Int.cast : Int → ZMod ALPHABET_LEN)) i j =
        (((mi.mat.getD (i : Nat) []).getD (j : Nat) 0 : Int) :
          ZMod ALPHABET_LEN) from rfl]
    rw [inverse_ok_entry h (by rw [hr]; exact i.isLt) (by rw [hr]; exact j.isLt)
      (by rw [hcol]; exact i.isLt) (by rw [hcol]; exact j.isLt)]
    rw [intCast_mod_eq, hminor, sign_eq_neg_one_pow,
      Matrix.adjugate_fin_succ_eq_det_submatrix]
    push_cast
    ring
  have hmi : (toMatrix (k + 2) mi.mat).map (Int.cast : Int → ZMod ALPHABET_LEN) =
      ((mod ((gcdExtended (mod (det m.mat) (ALPHABET_LEN : Int))
          (ALPHABET_LEN : Int)).2.1) (ALPHABET_LEN : Int) : Int) :
        ZMod ALPHABET_LEN) •
        (Matrix.adjugate (toMatrix (k + 2) m.mat)).map
          (Int.cast : Int → ZMod ALPHABET_LEN) := by
    ext i j
    rw [hentry i j]
    simp [Matrix.smul_apply, Matrix.map_apply, mul_comm]
  rw [hmi, Matrix.mul_smul]
  have hadjmap : (Matrix.adjugate (toMatrix (k + 2) m.mat)).map
      (Int.cast : Int → ZMod ALPHABET_LEN) =
      Matrix.adjugate ((toMatrix (k + 2) m.mat).map Int.cast) := by
    have hh := RingHom.map_adjugate (Int.castRingHom (ZMod ALPHABET_LEN))
      (toMatrix (k + 2) m.mat)
    rw [RingHom.mapMatrix_apply, RingHom.mapMatrix_apply] at hh
    exact hh
  rw [hadjmap, Matrix.mul_adjugate]
  have hdet : ((toMatrix (k + 2) m.mat).map
      (Int.cast : Int → ZMod ALPHABET_LEN)).det =
      ((det m.mat : Int) : ZMod ALPHABET_LEN) := by
    have hh := RingHom.map_det (Int.castRingHom (ZMod ALPHABET_LEN))
      (toMatrix (k + 2) m.mat)
    rw [RingHom.mapMatrix_apply] at hh
    have hh2 : ((toMatrix (k + 2) m.mat).map
        (Int.cast : Int → ZMod ALPHABET_LEN)).det =
        (((toMatrix (k + 2) m.mat).det : Int) : ZMod ALPHABET_LEN) := hh.symm
    rw [hh2]
    congr 1
    have hmat := det_laplace_correct m.mat
      (by intro hx; rw [hx] at hml; simp at hml)
      (by intro row hrw; rw [hrow row hrw, hml])
    rw [hml] at hmat
    exact hmat.symm
  rw [hdet, smul_smul, mul_comm, detModInverse_spec (det m.mat) hg1, one_smul]

/-- For a matrix with at least two rows, `inverse` fails exactly when
the determinant is divisible by the alphabet length or shares a factor
with it. -/
theorem inverse_fails_iff {m : CipherMat} (hnil : m.mat ≠ [])
    (hone : m.mat.length ≠ 1) :
    (∃ e, m.inverse = .error e) ↔
      (det m.mat % (ALPHABET_LEN : Int) = 0 ∨
        Int.gcd (det m.mat) (ALPHABET_LEN : Int) ≠ 1) := by
  rw [CipherMat.inverse, if_neg hnil]
  by_cases h0 : det m.mat = 0
  · rw [if_pos h0]
    constructor
    · intro _
      left
      rw [h0]
      exact Int.zero_emod _
    · intro _
      exact ⟨_, rfl⟩
  · rw [if_neg h0]
    by_cases h1 : (gcd (det m.mat) (ALPHABET_LEN : Int)).natAbs ≠ 1
    · rw [if_pos h1]
      constructor
      · intro _
        right
        rw [← gcd_natAbs]
        exact h1
      · intro _
        exact ⟨_, rfl⟩
    · rw [if_neg h1, if_neg (by rintro ⟨-, -, hl⟩; exact hone hl)]
      push_neg at h1
      constructor
      · rintro ⟨e, he⟩
        exact absurd he (by simp)
      · rintro (hmod | hgcd)
        · exfalso
          have hdvd : (ALPHABET_LEN : Int) ∣ det m.mat :=
            Int.dvd_of_emod_eq_zero hmod
          have hisl : Int.gcd (det m.mat) (ALPHABET_LEN : Int) =
              (ALPHABET_LEN : Int).natAbs := Int.gcd_eq_right hdvd
          rw [gcd_natAbs, hisl, Int.natAbs_ofNat, alphabet_length] at h1
          exact absurd h1 (by decide)
        · rw [gcd_natAbs] at h1
          exact absurd h1 hgcd

/-- Claim C2: the two determinant checks of `inverse` match the claim,
and on success the produced matrix is a genuine modular inverse — but
only for matrices of size at least 2.  The first conjunct exhibits the
divergence at size 1: the key matrix [[2]] is invertible modulo the
alphabet length, yet `inverse` fails (the source crashes with an
`IndexError` in `det([])` while computing the first cofactor). -/
theorem inverse_spec :
    (CipherMat.inverse ⟨[[2]], 1, 1⟩ = .error .indexError ∧
      det [[2]] ≠ 0 ∧ Int.gcd (det [[2]]) (ALPHABET_LEN : Int) = 1) ∧
    ∀ (n : Nat) (m : CipherMat), 2 ≤ n → m.rows = n → m.columns = n →
      m.mat.length = n → (∀ row ∈ m.mat, row.length = n) →
      (((∃ e, m.inverse = .error e) ↔
        (det m.mat % (ALPHABET_LEN : Int) = 0 ∨
          Int.gcd (det m.mat) (ALPHABET_LEN : Int) ≠ 1)) ∧
      ∀ mi, m.inverse = .ok mi →
        (toMatrix n m.mat).map (Int.cast : Int → ZMod ALPHABET_LEN) *
          (toMatrix n mi.mat).map Int.cast = 1) := by
  constructor
  · exact ⟨by decide, by decide, by decide⟩
  · intro n m hn2 hr hcol hml hrow
    refine ⟨inverse_fails_iff ?_ ?_, ?_⟩
    · intro hx
      rw [hx] at hml
      simp at hml
      omega
    · rw [hml]; omega
    · intro mi hmi
      exact inverse_mul_identity m mi hn2 hr hcol hml hrow hmi

/-- Witness for claim C2 at the 2×2 matrix derived from the key
`"EAFB"`. -/
theorem inverse_spec_witness :
    ((2 : Nat) ≤ 2) ∧
      (((∃ e, CipherMat.inverse ⟨[[4, 0], [5, 1]], 2, 2⟩ = .error e) ↔
        (det [[4, 0], [5, 1]] % (ALPHABET_LEN : Int) = 0 ∨
          Int.gcd (det [[4, 0], [5, 1]]) (ALPHABET_LEN : Int) ≠ 1)) ∧
      ∀ mi, CipherMat.inverse ⟨[[4, 0], [5, 1]], 2, 2⟩ = .ok mi →
        (toMatrix 2 ([[4, 0], [5, 1]] : List (List Int))).map
            (Int.cast : Int → ZMod ALPHABET_LEN) *
          (toMatrix 2 mi.mat).map Int.cast = 1) :=
  ⟨by decide, inverse_spec.2 2 ⟨[[4, 0], [5, 1]], 2, 2⟩ (by decide) rfl rfl
    (by decide) (by decide)⟩

/-! ## The round trip -/

theorem flatten_const_length {α : Type} (n : Nat) (ls : List (List α))
    (h : ∀ l ∈ ls, l.length = n) : ls.flatten.length = n * ls.length := by
  induction ls with
  | nil => simp
  | cons l t ih =>
    rw [List.flatten_cons, List.length_append,
      h l (List.mem_cons_self l t),
      ih (fun x hx => h x (List.mem_cons_of_mem _ hx)), List.length_cons,
      Nat.mul_succ]
    omega

/-- Casting to `ZMod ALPHABET_LEN` is injective on normalized
residues. -/
theorem intCast_inj_of_bounds {a b : Int}
    (ha : 0 ≤ a ∧ a < (ALPHABET_LEN : Int))
    (hb : 0 ≤ b ∧ b < (ALPHABET_LEN : Int))
    (h : (a : ZMod ALPHABET_LEN) = (b : ZMod ALPHABET_LEN)) : a = b := by
  rw [ZMod.intCast_eq_intCast_iff',
    Int.emod_eq_of_lt ha.1 ha.2, Int.emod_eq_of_lt hb.1 hb.2] at h
  exact h

/-- `CipherMat.cipher`, read in `ZMod ALPHABET_LEN`, is matrix-vector
multiplication. -/
theorem cipher_castVec (m' : CipherMat) (n : Nat) (hr : m'.rows = n)
    (hc : m'.columns = n) (b : List Int) (i : Fin n) :
    (((m'.cipher b).getD (i : Nat) 0 : Int) : ZMod ALPHABET_LEN) =
      Matrix.mulVec ((toMatrix n m'.mat).map (Int.cast : Int → ZMod ALPHABET_LEN))
        (fun j : Fin n => ((b.getD (j : Nat) 0 : Int) : ZMod ALPHABET_LEN)) i := by
  rw [CipherMat.cipher, hr, hc,
    range_map_getD n _ (i : Nat) i.isLt 0, intCast_mod_eq, range_map_sum]
  rw [show ((∑ c ∈ Finset.range n,
      (m'.mat.getD (i : Nat) []).getD c 0 * b.getD c 0 : Int) : ZMod ALPHABET_LEN) =
    ∑ c ∈ Finset.range n,
      (((m'.mat.getD (i : Nat) []).getD c 0 * b.getD c 0 : Int) : ZMod ALPHABET_LEN)
    from by push_cast; rfl]
  rw [← Fin.sum_univ_eq_sum_range
    (fun c => (((m'.mat.getD (i : Nat) []).getD c 0 * b.getD c 0 : Int) :
      ZMod ALPHABET_LEN)) n]
  rw [show Matrix.mulVec ((toMatrix n m'.mat).map
        (Int.cast : Int → ZMod ALPHABET_LEN))
        (fun j : Fin n => ((b.getD (j : Nat) 0 : Int) : ZMod ALPHABET_LEN)) i =
      ∑ j : Fin n, (((m'.mat.getD (i : Nat) []).getD (j : Nat) 0 : Int) :
          ZMod ALPHABET_LEN) * ((b.getD (j : Nat) 0 : Int) : ZMod ALPHABET_LEN)
    from rfl]
  apply Finset.sum_congr rfl
  intro j _
  push_cast
  rfl

/-- Deciphering a ciphered block recovers the block, given the two
installed matrices multiply to the identity modulo the alphabet
length. -/
theorem cipher_cipher_eq (m mi : CipherMat) (n : Nat)
    (hmr : m.rows = n) (hmc : m.columns = n)
    (hir : mi.rows = n) (hic : mi.columns = n)
    (hone : (toMatrix n m.mat).map (Int.cast : Int → ZMod ALPHABET_LEN) *
      (toMatrix n mi.mat).map Int.cast = 1)
    (b : List Int) (hb : b.length = n)
    (hbb : ∀ v ∈ b, 0 ≤ v ∧ v < (ALPHABET_LEN : Int)) :
    mi.cipher (m.cipher b) = b := by
  have hone' : (toMatrix n mi.mat).map (Int.cast : Int → ZMod ALPHABET_LEN) *
      (toMatrix n m.mat).map Int.cast = 1 := Matrix.mul_eq_one_comm.mp hone
  have hlen1 : (mi.cipher (m.cipher b)).length = n := by
    rw [cipher_length, hir]
  apply List.ext_getElem (by rw [hlen1, hb])
  intro r h1 h2
  rw [hlen1] at h1
  have hfin : ∀ (l : List Int) (hl : r < l.length),
      l[r] = l.getD r 0 := by
    intro l hl
    rw [List.getD_eq_getElem?_getD, List.getElem?_eq_getElem hl]
    rfl
  rw [hfin _ h2, hfin _ (by omega)]
  set i : Fin n := ⟨r, h1⟩
  -- both sides are normalized residues with equal images in `ZMod`
  apply intCast_inj_of_bounds
  · apply cipher_bounds
    rw [show (mi.cipher (m.cipher b)).getD r 0 =
        (mi.cipher (m.cipher b)).get ⟨r, by rw [hlen1]; exact h1⟩ from by
      rw [List.getD_eq_getElem?_getD, List.getElem?_eq_getElem]; rfl]
    exact List.get_mem _ _ _
  · apply hbb
    rw [show b.getD r 0 = b.get ⟨r, by omega⟩ from by
      rw [List.getD_eq_getElem?_getD, List.getElem?_eq_getElem]; rfl]
    exact List.get_mem _ _ _
  · rw [show ((b.getD r 0 : Int) : ZMod ALPHABET_LEN) =
        (fun j : Fin n => ((b.getD (j : Nat) 0 : Int) : ZMod ALPHABET_LEN)) i
      from rfl]
    rw [show (((mi.cipher (m.cipher b)).getD r 0 : Int) : ZMod ALPHABET_LEN) =
        (((mi.cipher (m.cipher b)).getD (i : Nat) 0 : Int) : ZMod ALPHABET_LEN)
      from rfl]
    rw [cipher_castVec mi n hir hic (m.cipher b) i]
    have hvec : (fun j : Fin n =>
        (((m.cipher b).getD (j : Nat) 0 : Int) : ZMod ALPHABET_LEN)) =
        Matrix.mulVec ((toMatrix n m.mat).map
          (Int.cast : Int → ZMod ALPHABET_LEN))
          (fun j : Fin n => ((b.getD (j : Nat) 0 : Int) : ZMod ALPHABET_LEN)) := by
      funext j
      exact cipher_castVec m n hmr hmc b j
    rw [hvec, Matrix.mulVec_mulVec, hone', Matrix.one_mulVec]

/-- Round trip of the block driver: running the driver with a matrix and
then with a matrix that is its modular inverse restores any supported,
block-aligned message. -/
theorem core_roundtrip (m mi : CipherMat) (n : Nat) (hn : n ≠ 0)
    (hmr : m.rows = n) (hmc : m.columns = n)
    (hir : mi.rows = n) (hic : mi.columns = n)
    (hone : (toMatrix n m.mat).map (Int.cast : Int → ZMod ALPHABET_LEN) *
      (toMatrix n mi.mat).map Int.cast = 1)
    (msgp : List Char) (hmem : ∀ c ∈ msgp, c ∈ ALPHABET)
    (hdvd : msgp.length % n = 0) :
    ∃ ct : List Char,
      hillCipherCore m msgp = .ok ct ∧ hillCipherCore mi ct = .ok msgp := by
  have hnpos : 0 < n := Nat.pos_of_ne_zero hn
  set nums := msgp.map (fun c => (ALPHABET.indexOf c : Int)) with hnums
  have htr : translate msgp = .ok nums := translate_eq_ok.mpr ⟨hmem, rfl⟩
  have hndvd : n ∣ nums.length := by
    rw [hnums, List.length_map]
    exact Nat.dvd_of_mod_eq_zero hdvd
  set blocks := chunkBlocks n nums with hblocks
  have hblen : ∀ b ∈ blocks, b.length = n :=
    chunkBlocks_block_length hnpos hndvd
  set J := (blocks.map m.cipher).flatten with hJ
  have hJb : ∀ v ∈ J, 0 ≤ v ∧ v < (ALPHABET_LEN : Int) := by
    intro v hv
    rw [hJ] at hv
    obtain ⟨l, hl, hvl⟩ := List.mem_flatten.mp hv
    obtain ⟨bb, hbbm, rfl⟩ := List.mem_map.mp hl
    exact cipher_bounds m bb v hvl
  set ct := J.map (fun v => ALPHABET.getD v.toNat ' ') with hct
  have hun : untranslate J = .ok ct := untranslate_eq_ok hJb
  have henc : hillCipherCore m msgp = .ok ct := by
    rw [hillCipherCore, CipherMat.size, hmr, if_neg hn,
      if_neg (fun h => h hdvd)]
    show (translate msgp).bind _ = _
    rw [htr]
    show untranslate J = Except.ok ct
    exact hun
  have hcipherlen : ∀ l ∈ blocks.map m.cipher, l.length = n := by
    intro l hl
    obtain ⟨bb, _, rfl⟩ := List.mem_map.mp hl
    rw [cipher_length, hmr]
  have hctlen : ct.length % n = 0 := by
    rw [hct, List.length_map, hJ, flatten_const_length n _ hcipherlen]
    exact Nat.mul_mod_right n _
  have hctr : translate ct = .ok J := translate_untranslate hJb
  have hdec : hillCipherCore mi ct = .ok msgp := by
    rw [hillCipherCore, CipherMat.size, hir, if_neg hn,
      if_neg (fun h => h hctlen)]
    show (translate ct).bind _ = _
    rw [hctr]
    show untranslate ((chunkBlocks n J).map mi.cipher).flatten = _
    have hchunkJ : chunkBlocks n J = blocks.map m.cipher := by
      rw [hJ]
      exact chunkBlocks_of_blocks hnpos _ hcipherlen
    rw [hchunkJ, List.map_map]
    have hmapid : blocks.map (mi.cipher ∘ m.cipher) = blocks := by
      conv_rhs => rw [← List.map_id blocks]
      apply List.map_congr_left
      intro bb hbbm
      have hbbbound : ∀ v ∈ bb, 0 ≤ v ∧ v < (ALPHABET_LEN : Int) := by
        intro v hv
        have hvnums : v ∈ nums := by
          rw [← chunkBlocks_flatten hnpos nums]
          exact List.mem_flatten.mpr ⟨bb, by rw [← hblocks]; exact hbbm, hv⟩
        exact translate_bounds htr v hvnums
      exact cipher_cipher_eq m mi n hmr hmc hir hic hone bb
        (hblen bb hbbm) hbbbound
    rw [hmapid, hblocks, chunkBlocks_flatten hnpos nums]
    show untranslate (msgp.map (fun c => (ALPHABET.indexOf c : Int))) = _
    exact untranslate_translate hmem
  exact ⟨ct, henc, hdec⟩

/-- Claim C1: the round-trip property, together with the divergence that
falsifies it as universally stated.  The first conjunct shows the code
bug: the one-letter key `"C"` has the invertible 1×1 matrix [[2]], the
message `"B"` encodes to `"C"`, but decoding crashes (the source raises
`IndexError` in `det([])`), so the round trip does not return `"B"`.
The second conjunct is the round-trip law wherever the code can decode
at all: whenever the key matrix is constructed and its modular inverse
is computed successfully, decoding the encoding of any supported message
returns the message followed by zero or more blank symbols. -/
theorem hillCipher_roundtrip :
    (hillCipher ['B'] ['C'] true = .ok ['C'] ∧
      hillCipher ['C'] ['C'] false = .error .indexError) ∧
    ∀ (S K : List Char) (m mi : CipherMat),
      CipherMat.stringToMat K = .ok m → m.inverse = .ok mi →
      (∀ c ∈ S, c ∈ ALPHABET) →
      ∃ (ct : List Char) (p : Nat),
        hillCipher S K true = .ok ct ∧
        hillCipher ct K false = .ok (S ++ List.replicate p ' ') := by
  constructor
  · exact ⟨by decide, by decide⟩
  · intro S K m mi hsm hinv hS
    obtain ⟨hrows, hcols, hmlen, hrowlen⟩ := stringToMat_shape hsm
    obtain ⟨hD0, hg1, hnil, hnot1⟩ := inverse_ok_checks hinv
    set n := intSqrt K.length with hn
    have hn0 : n ≠ 0 := by
      intro h0
      apply hnil
      apply List.eq_nil_of_length_eq_zero
      rw [hmlen, hrows, h0]
    have hn2 : 2 ≤ n := by
      by_contra hlt
      push_neg at hlt
      have hn1 : n = 1 := by omega
      exact hnot1 ⟨by rw [hrows, hn1]; omega, by rw [hcols, hrows, hn1]; omega,
        by rw [hmlen, hrows, hn1]⟩
    obtain ⟨hirows, hicols, -, -⟩ := inverse_shape hinv
    have hone := inverse_mul_identity m mi hn2 hrows (by rw [hcols, hrows])
      (by rw [hmlen, hrows]) (fun r hr => by rw [hrowlen r hr, hrows]) hinv
    set p := (n - S.length % n) % n with hp
    set Sp := S ++ List.replicate p ' ' with hSp
    have hSpmem : ∀ c ∈ Sp, c ∈ ALPHABET := by
      intro c hc
      rw [hSp] at hc
      rcases List.mem_append.mp hc with h | h
      · exact hS c h
      · rw [List.eq_of_mem_replicate h]
        decide
    have hSplen : Sp.length % n = 0 := by
      rw [hSp, List.length_append, List.length_replicate, hp]
      by_cases hr0 : S.length % n = 0
      · rw [hr0, Nat.sub_zero, Nat.mod_self, Nat.add_zero, hr0]
      · have hlt : S.length % n < n := Nat.mod_lt _ (Nat.pos_of_ne_zero hn0)
        have hplt : (n - S.length % n) % n = n - S.length % n :=
          Nat.mod_eq_of_lt (by omega)
        rw [hplt]
        have hq := Nat.div_add_mod S.length n
        have heq : S.length + (n - S.length % n) =
            n * (S.length / n) + n := by omega
        rw [heq, ← Nat.mul_succ, Nat.mul_mod_right]
    obtain ⟨ct, henc, hdec⟩ := core_roundtrip m mi n hn0 hrows
      (by rw [hcols, hrows]) (by rw [hirows, hrows])
      (by rw [hicols, hcols, hrows]) hone Sp hSpmem hSplen
    refine ⟨ct, p, ?_, ?_⟩
    · rw [hillCipher, hsm]
      show hillCipherCore m S = _
      have hms : m.size = n := by rw [CipherMat.size, hrows]
      have hpad := hillCipherCore_pad m S
      rw [hms] at hpad
      rw [hpad, ← hp, ← hSp]
      exact henc
    · rw [hillCipher, hsm]
      show (CipherMat.inverse m).bind (fun m' => hillCipherCore m' ct) = _
      rw [hinv]
      show hillCipherCore mi ct = _
      rw [hdec]

/-- Witness for claim C1 at the message `"PEAR"` and the key `"EAFB"`
(whose 2×2 matrix is invertible modulo 97). -/
theorem hillCipher_roundtrip_witness :
    (CipherMat.stringToMat ['E', 'A', 'F', 'B'] =
        .ok ⟨[[4, 0], [5, 1]], 2, 2⟩) ∧
      (CipherMat.inverse ⟨[[4, 0], [5, 1]], 2, 2⟩ =
        .ok ⟨[[73, 0], [23, 1]], 2, 2⟩) ∧
      (∀ c ∈ (['P', 'E', 'A', 'R'] : List Char), c ∈ ALPHABET) ∧
      ∃ (ct : List Char) (p : Nat),
        hillCipher ['P', 'E', 'A', 'R'] ['E', 'A', 'F', 'B'] true = .ok ct ∧
        hillCipher ct ['E', 'A', 'F', 'B'] false =
          .ok (['P', 'E', 'A', 'R'] ++ List.replicate p ' ') :=
  ⟨by decide, by decide, by decide,
    hillCipher_roundtrip.2 ['P', 'E', 'A', 'R'] ['E', 'A', 'F', 'B']
      ⟨[[4, 0], [5, 1]], 2, 2⟩ ⟨[[73, 0], [23, 1]], 2, 2⟩
      (by decide) (by decide) (by decide)⟩

end HillCipher

namespace Ciphers

/-- Claim C9: over the 27-letter alphabet of `ciphers.py`, the key
`"EAFB"` yields the matrix [[4,0],[5,1]], encoding `"PEAR"` yields
`"KDAR"`, and decoding `"KDAR"` yields `"PEAR"` back. -/
theorem hillCipher_pear_example :
    TwoByTwoCipherMat.stringToMat ['E', 'A', 'F', 'B'] = some ⟨4, 0, 5, 1⟩ ∧
      hillCipher ['P', 'E', 'A', 'R'] ['E', 'A', 'F', 'B'] true =
        some ['K', 'D', 'A', 'R'] ∧
      hillCipher ['K', 'D', 'A', 'R'] ['E', 'A', 'F', 'B'] false =
        some ['P', 'E', 'A', 'R'] := by
  refine ⟨by decide, by decide, by decide⟩

end Ciphers
